import Mathlib

/-!
The bulk import-path rewriter `gore`.

A shallow embedding of `main.go`: the two rewrite strategies `importHandler`
and `modHandler`, and the per-file transaction `(*Walker).Visit`, together
with the library routines they call (`unicode/utf8`, `strings`, `strconv`,
`astutil.RewriteImport`), followed by theorems about them.

Conventions of the embedding:

* a Go string is the list of its bytes; runes, lengths and offsets are natural
  numbers (a rune is never negative here, and a value that Go holds in an
  `int32` and that would overflow is rejected by the code before it is used);
* a Go loop over a string is a recursion with a bound on its iterations, which
  the caller sets to the length of the string (every iteration consumes at
  least one byte);
* the strategies mutate the syntax tree in place; here they return the tree
  as they leave it;
* the parser and the printers of the tool chain are parameters (`Env`), and so
  are the outcomes of the system calls (`Faults`); the file system and the
  calls that `Visit` makes are an explicit state (`World`);
* an interface value that may be nil is an `Option`, and a call that ends in a
  run-time panic has a result of its own (`Return.panicked`).
-/

namespace Gore

/-- A Go `byte`. -/
abbrev Byte := Fin 256

/-- A Go `string` (also used for `[]byte`): a sequence of bytes. -/
abbrev GoString := List Byte

/-- The conversion `byte(n)`: keeps the low eight bits. -/
def byte (n : Nat) : Byte := ⟨n % 256, Nat.mod_lt n (by decide)⟩

/-- Go string constant with the given ASCII text. -/
def str (s : String) : GoString := s.data.map (fun c => byte c.toNat)

/-! ## unicode/utf8 -/

namespace utf8

def RuneError : Nat := 0xFFFD
def RuneSelf : Nat := 0x80
def MaxRune : Nat := 0x10FFFF
def surrogateMin : Nat := 0xD800
def surrogateMax : Nat := 0xDFFF
def rune1Max : Nat := 0x7F
def rune2Max : Nat := 0x7FF
def rune3Max : Nat := 0xFFFF

def locb : Nat := 0x80
def hicb : Nat := 0xBF

-- codes of the table `first`: the low three bits are the size of the
-- encoding, the high four bits index `acceptRanges`
def xx : Nat := 0xF1
def as : Nat := 0xF0
def s1 : Nat := 0x02
def s2 : Nat := 0x13
def s3 : Nat := 0x03
def s4 : Nat := 0x23
def s5 : Nat := 0x34
def s6 : Nat := 0x04
def s7 : Nat := 0x44

/-- The table `first`: information about the first byte of an encoding. -/
def first (b : Nat) : Nat :=
  if b < 0x80 then as          -- 0x00-0x7F
  else if b < 0xC2 then xx     -- 0x80-0xC1
  else if b < 0xE0 then s1     -- 0xC2-0xDF
  else if b = 0xE0 then s2
  else if b < 0xED then s3     -- 0xE1-0xEC
  else if b = 0xED then s4
  else if b < 0xF0 then s3     -- 0xEE-0xEF
  else if b = 0xF0 then s5
  else if b < 0xF4 then s6     -- 0xF1-0xF3
  else if b = 0xF4 then s7
  else xx                      -- 0xF5-0xFF

/-- The table `acceptRanges` (of 16 entries, those past the fifth zero):
the range `(lo, hi)` of valid second bytes. -/
def acceptRanges (i : Nat) : Nat × Nat :=
  match i with
  | 0 => (locb, hicb)
  | 1 => (0xA0, hicb)
  | 2 => (locb, 0x9F)
  | 3 => (0x90, hicb)
  | 4 => (locb, 0x8F)
  | _ => (0, 0)

/-- The byte `s[i]` as a number (the callers have checked `i < len(s)`). -/
def byteAt (s : GoString) (i : Nat) : Nat := (s.getD i 0).val

/-- `utf8.DecodeRuneInString`: the first rune of `s` and its width in bytes;
`(RuneError, 0)` for the empty string and `(RuneError, 1)` for an invalid
encoding. The masked bytes are shifted and or-ed in Go; the bit fields are
disjoint, so here they are scaled and added. -/
def DecodeRuneInString (s : GoString) : Nat × Nat :=
  let n := s.length
  if n < 1 then (RuneError, 0)
  else
    let s0 := byteAt s 0
    let x := first s0
    if x ≥ as then
      -- mask := rune(x) << 31 >> 31; rune(s[0])&^mask | RuneError&mask
      (if x % 2 = 1 then RuneError else s0, 1)
    else
      let sz := x % 8                     -- x & 7
      let accept := acceptRanges (x / 16) -- x >> 4
      if n < sz then (RuneError, 1)
      else
        let b1 := byteAt s 1
        if b1 < accept.1 ∨ accept.2 < b1 then (RuneError, 1)
        else if sz ≤ 2 then
          -- rune(s0&mask2)<<6 | rune(s1&maskx)
          ((s0 % 32) * 64 + b1 % 64, 2)
        else
          let b2 := byteAt s 2
          if b2 < locb ∨ hicb < b2 then (RuneError, 1)
          else if sz ≤ 3 then
            -- rune(s0&mask3)<<12 | rune(s1&maskx)<<6 | rune(s2&maskx)
            ((s0 % 16) * 4096 + (b1 % 64) * 64 + b2 % 64, 3)
          else
            let b3 := byteAt s 3
            if b3 < locb ∨ hicb < b3 then (RuneError, 1)
            else
              -- rune(s0&mask4)<<18 | rune(s1&maskx)<<12 | rune(s2&maskx)<<6 | rune(s3&maskx)
              ((s0 % 8) * 262144 + (b1 % 64) * 4096 + (b2 % 64) * 64 + b3 % 64, 4)

/-- `utf8.AppendRune(nil, r)`: the UTF-8 encoding of the rune `r` (runes
are non-negative here). -/
def AppendRune (r : Nat) : GoString :=
  if r ≤ rune1Max then [byte r]
  else if r ≤ rune2Max then
    -- t2|byte(r>>6), tx|byte(r)&maskx
    [byte (0xC0 + r / 64), byte (0x80 + r % 64)]
  else if r > MaxRune ∨ (surrogateMin ≤ r ∧ r ≤ surrogateMax) then
    -- r = RuneError; fallthrough
    [byte (0xE0 + RuneError / 4096), byte (0x80 + RuneError / 64 % 64),
      byte (0x80 + RuneError % 64)]
  else if r ≤ rune3Max then
    -- t3|byte(r>>12), tx|byte(r>>6)&maskx, tx|byte(r)&maskx
    [byte (0xE0 + r / 4096), byte (0x80 + r / 64 % 64), byte (0x80 + r % 64)]
  else
    -- t4|byte(r>>18), tx|byte(r>>12)&maskx, tx|byte(r>>6)&maskx, tx|byte(r)&maskx
    [byte (0xF0 + r / 262144), byte (0x80 + r / 4096 % 64), byte (0x80 + r / 64 % 64),
      byte (0x80 + r % 64)]

/-- `utf8.ValidRune`. -/
def ValidRune (r : Nat) : Bool :=
  if r < surrogateMin then true
  else if surrogateMax < r ∧ r ≤ MaxRune then true
  else false

/-- The loop of `utf8.ValidString` on the rest `s[i:]` of the string; `fuel`
bounds the number of iterations. -/
def validLoop : Nat → GoString → Bool
  | 0, s => s.isEmpty
  | fuel + 1, s =>
    match s with
    | [] => true
    | si :: _ =>
      if si.val < RuneSelf then validLoop fuel (s.drop 1)
      else
        let x := first si.val
        if x = xx then false
        else
          let size := x % 8
          if size > s.length then false
          else
            let accept := acceptRanges (x / 16)
            if byteAt s 1 < accept.1 ∨ accept.2 < byteAt s 1 then false
            else if size = 2 then validLoop fuel (s.drop size)
            else if byteAt s 2 < locb ∨ hicb < byteAt s 2 then false
            else if size = 3 then validLoop fuel (s.drop size)
            else if byteAt s 3 < locb ∨ hicb < byteAt s 3 then false
            else validLoop fuel (s.drop size)

/-- `utf8.ValidString` (without its fast path, which skips eight bytes of
ASCII at a time). -/
def ValidString (s : GoString) : Bool := validLoop s.length s

/-- The loop of `utf8.RuneCountInString`: an invalid or short encoding counts
as one rune of width one, as `DecodeRuneInString` reports it. -/
def runeCountLoop : Nat → GoString → Nat
  | 0, _ => 0
  | fuel + 1, s =>
    match s with
    | [] => 0
    | _ :: _ => runeCountLoop fuel (s.drop (DecodeRuneInString s).2) + 1

/-- `utf8.RuneCountInString`. -/
def RuneCountInString (s : GoString) : Nat := runeCountLoop s.length s

end utf8

/-! ## strings -/

namespace strings

/-- `strings.HasPrefix`: `len(s) >= len(prefix) && s[:len(prefix)] == prefix`. -/
def HasPrefix (s pre : GoString) : Bool :=
  decide (s.length ≥ pre.length) && s.take pre.length == pre

/-- `strings.HasSuffix`: `len(s) >= len(suffix) && s[len(s)-len(suffix):] == suffix`. -/
def HasSuffix (s suffix : GoString) : Bool :=
  decide (s.length ≥ suffix.length) && s.drop (s.length - suffix.length) == suffix

/-- The search of `strings.Index` from offset `i`, `s` being the rest of the
string there. -/
def indexFrom (substr : GoString) : GoString → Nat → Option Nat
  | [], i => if HasPrefix [] substr then some i else none
  | b :: t, i => if HasPrefix (b :: t) substr then some i else indexFrom substr t (i + 1)

/-- `strings.Index`: the offset of the first instance of `substr` in `s`;
`none` stands for `-1`. -/
def Index (s substr : GoString) : Option Nat := indexFrom substr s 0

/-- `strings.Contains`: `Index(s, substr) >= 0`. -/
def Contains (s substr : GoString) : Bool := (Index s substr).isSome

/-- The loop of `strings.Count` for a `substr` of two bytes or more. -/
def countLoop (substr : GoString) : Nat → GoString → Nat
  | 0, _ => 0
  | fuel + 1, s =>
    match Index s substr with
    | none => 0
    | some i => countLoop substr fuel (s.drop (i + substr.length)) + 1

/-- `strings.Count`: the number of non-overlapping instances of `substr`. -/
def Count (s substr : GoString) : Nat :=
  match substr with
  | [] => utf8.RuneCountInString s + 1
  | [c] => s.count c
  | _ => countLoop substr s.length s

/-- The loop of `strings.Replace`: iteration `i` of `n`, with `start` the
offset reached; the result is what the builder holds at the end. -/
def replaceLoop (s old new : GoString) : Nat → Nat → Nat → GoString
  | 0, _, start => s.drop start
  | k + 1, i, start =>
    let j :=
      if old.length = 0 then
        if i > 0 then start + (utf8.DecodeRuneInString (s.drop start)).2 else start
      else start + (Index (s.drop start) old).getD 0
    (s.drop start).take (j - start) ++ new ++ replaceLoop s old new k (i + 1) (j + old.length)

/-- `strings.Replace(s, old, new, n)`; a negative `n` replaces every instance. -/
def Replace (s old new : GoString) (n : Int) : GoString :=
  if old = new ∨ n = 0 then s
  else
    let m := Count s old
    if m = 0 then s
    else
      let n := if n < 0 ∨ (m : Int) < n then m else n.toNat
      replaceLoop s old new n 0 0

end strings

/-! ## strconv -/

namespace strconv

/-- `strconv.IsPrint`. Latin-1 is decided by the code itself; for the other
runes the code searches the tables `isPrint16`, `isNotPrint16`, `isPrint32`
and `isNotPrint32`, here the parameter `tab`. -/
def IsPrint (tab : Nat → Bool) (r : Nat) : Bool :=
  if r ≤ 0xFF then
    if 0x20 ≤ r ∧ r ≤ 0x7E then true
    else if 0xA1 ≤ r ∧ r ≤ 0xFF then r != 0xAD
    else false
  else tab r

/-- The digit `lowerhex[n]` of `"0123456789abcdef"`. -/
def lowerhex (n : Nat) : Byte :=
  if n < 10 then byte (0x30 + n) else byte (0x61 + (n - 10))

/-- `strconv.appendEscapedRune`, as `Quote` calls it (`ASCIIonly` and
`graphicOnly` are false). -/
def appendEscapedRune (tab : Nat → Bool) (r : Nat) (quote : Byte) : GoString :=
  if r = quote.val ∨ r = 0x5C then [0x5C, byte r]   -- always backslashed
  else if IsPrint tab r then utf8.AppendRune r
  else if r = 0x07 then [0x5C, 0x61]       -- \a
  else if r = 0x08 then [0x5C, 0x62]       -- \b
  else if r = 0x0C then [0x5C, 0x66]       -- \f
  else if r = 0x0A then [0x5C, 0x6E]       -- \n
  else if r = 0x0D then [0x5C, 0x72]       -- \r
  else if r = 0x09 then [0x5C, 0x74]       -- \t
  else if r = 0x0B then [0x5C, 0x76]       -- \v
  else if r < 0x20 ∨ r = 0x7F then
    -- \x, lowerhex[byte(r)>>4], lowerhex[byte(r)&0xF]
    [0x5C, 0x78, lowerhex ((byte r).val / 16), lowerhex ((byte r).val % 16)]
  else
    -- case !utf8.ValidRune(r): r = 0xFFFD; fallthrough to case r < 0x10000
    let r := if !utf8.ValidRune r then 0xFFFD else r
    if r < 0x10000 then
      -- \u, lowerhex[r>>uint(s)&0xF] for s = 12, 8, 4, 0
      [0x5C, 0x75, lowerhex (r / 4096 % 16), lowerhex (r / 256 % 16), lowerhex (r / 16 % 16),
        lowerhex (r % 16)]
    else
      -- \U, lowerhex[r>>uint(s)&0xF] for s = 28, 24, ..., 0
      [0x5C, 0x55, lowerhex (r / 268435456 % 16), lowerhex (r / 16777216 % 16),
        lowerhex (r / 1048576 % 16), lowerhex (r / 65536 % 16), lowerhex (r / 4096 % 16),
        lowerhex (r / 256 % 16), lowerhex (r / 16 % 16), lowerhex (r % 16)]

/-- The loop of `strconv.appendQuotedWith` on the rest `s` of the string:
what it appends for the runes of `s`. -/
def quoteLoop (tab : Nat → Bool) (quote : Byte) : Nat → GoString → GoString
  | 0, _ => []
  | fuel + 1, s =>
    match s with
    | [] => []
    | s0 :: _ =>
      let rw := if s0.val ≥ utf8.RuneSelf then utf8.DecodeRuneInString s else (s0.val, 1)
      if rw.2 = 1 ∧ rw.1 = utf8.RuneError then
        [0x5C, 0x78, lowerhex (s0.val / 16), lowerhex (s0.val % 16)]
          ++ quoteLoop tab quote fuel (s.drop rw.2)
      else appendEscapedRune tab rw.1 quote ++ quoteLoop tab quote fuel (s.drop rw.2)

/-- `strconv.appendQuotedWith(nil, s, quote, false, false)`. -/
def appendQuotedWith (tab : Nat → Bool) (s : GoString) (quote : Byte) : GoString :=
  quote :: (quoteLoop tab quote s.length s ++ [quote])

/-- `strconv.Quote`: the double-quoted Go string literal of `s`. -/
def Quote (tab : Nat → Bool) (s : GoString) : GoString := appendQuotedWith tab s 0x22

/-- `strconv.unhex`. -/
def unhex (b : Byte) : Option Nat :=
  let c := b.val
  if 0x30 ≤ c ∧ c ≤ 0x39 then some (c - 0x30)
  else if 0x61 ≤ c ∧ c ≤ 0x66 then some (c - 0x61 + 10)
  else if 0x41 ≤ c ∧ c ≤ 0x46 then some (c - 0x41 + 10)
  else none

/-- The loop `v = v<<4 | x` of `UnquoteChar` over the hexadecimal digits. -/
def unhexLoop : GoString → Nat → Option Nat
  | [], v => some v
  | b :: t, v =>
    match unhex b with
    | none => none
    | some x => unhexLoop t (v * 16 + x)

/-- The loop `v = (v<<3) | x` of `UnquoteChar` over the octal digits. -/
def octalLoop : GoString → Nat → Option Nat
  | [], v => some v
  | b :: t, v =>
    -- x := rune(s[j]) - '0'; x < 0 || x > 7
    if b.val < 0x30 ∨ b.val - 0x30 > 7 then none else octalLoop t (v * 8 + (b.val - 0x30))

/-- `strconv.UnquoteChar`: the first character or byte of the escaped string
`s`, as `(value, multibyte, tail)`; `none` is `ErrSyntax`. -/
def UnquoteChar (s : GoString) (quote : Byte) : Option (Nat × Bool × GoString) :=
  match s with
  | [] => none
  | c :: rest =>
    if c = quote ∧ (quote = 0x27 ∨ quote = 0x22) then none
    else if c.val ≥ utf8.RuneSelf then
      let rs := utf8.DecodeRuneInString s
      some (rs.1, true, s.drop rs.2)
    else if c ≠ 0x5C then some (c.val, false, rest)
    else
      -- hard case: c is backslash
      match rest with
      | [] => none
      | c :: s =>
        if c = 0x61 then some (0x07, false, s)
        else if c = 0x62 then some (0x08, false, s)
        else if c = 0x66 then some (0x0C, false, s)
        else if c = 0x6E then some (0x0A, false, s)
        else if c = 0x72 then some (0x0D, false, s)
        else if c = 0x74 then some (0x09, false, s)
        else if c = 0x76 then some (0x0B, false, s)
        else if c = 0x78 ∨ c = 0x75 ∨ c = 0x55 then
          let n := if c = 0x78 then 2 else if c = 0x75 then 4 else 8
          if s.length < n then none
          else
            match unhexLoop (s.take n) 0 with
            | none => none
            | some v =>
              if c = 0x78 then some (v, false, s.drop n)   -- single byte, possibly not UTF-8
              else if !utf8.ValidRune v then none
              else some (v, true, s.drop n)
        else if 0x30 ≤ c.val ∧ c.val ≤ 0x37 then
          if s.length < 2 then none
          else
            match octalLoop (s.take 2) (c.val - 0x30) with
            | none => none
            | some v => if v > 255 then none else some (v, false, s.drop 2)
        else if c = 0x5C then some (0x5C, false, s)
        else if c = 0x27 ∨ c = 0x22 then
          if c ≠ quote then none else some (c.val, false, s)
        else none

/-- `strconv.index` (`bytealg.IndexByteString`): the offset of the first
byte `c` in `s`; `none` stands for `-1`. -/
def index : GoString → Byte → Option Nat
  | [], _ => none
  | b :: t, c => if b = c then some 0 else (index t c).map (· + 1)

/-- `strconv.contains`: reports whether the string contains the byte `c`. -/
def contains (s : GoString) (c : Byte) : Bool := (index s c).isSome

/-- The loop of `strconv.unquote` over a quoted string with escape sequences:
`some (buf, rest)` where the loop stops, `none` for `ErrSyntax`. -/
def unquoteLoop (quote : Byte) : Nat → GoString → GoString → Option (GoString × GoString)
  | 0, s, buf => some (buf, s)
  | fuel + 1, s, buf =>
    match s with
    | [] => some (buf, s)
    | c :: _ =>
      if c = quote then some (buf, s)
      else
        match UnquoteChar s quote with
        | none => none
        | some (r, multibyte, rem) =>
          if c = 0x0A then none
          else
            let buf := if r < utf8.RuneSelf ∨ !multibyte then buf ++ [byte r]
              else buf ++ utf8.AppendRune r
            -- single quoted strings must be a single character
            if quote = 0x27 then some (buf, rem) else unquoteLoop quote fuel rem buf

/-- `strconv.unquote(in, true)`, as of Go 1.17: `some (out, rem)`, or `none`
for `ErrSyntax` (whose `out` is empty). -/
def unquote (inp : GoString) : Option (GoString × GoString) :=
  if inp.length < 2 then none
  else
    let quote := inp.getD 0 0
    match index (inp.drop 1) quote with
    | none => none
    | some e =>
      let e := e + 2   -- position after the terminating quote
      if quote = 0x60 then
        if !contains (inp.take e) 0x0D then some ((inp.take (e - 1)).drop 1, inp.drop e)
        else some (((inp.take (e - 1)).drop 1).filter (fun b => b != 0x0D), inp.drop e)
      else if quote = 0x22 ∨ quote = 0x27 then
        let valid :=
          if quote = 0x22 then utf8.ValidString ((inp.take (e - 1)).drop 1)
          else
            let rn := utf8.DecodeRuneInString ((inp.take (e - 1)).drop 1)
            decide (1 + rn.2 + 1 = e ∧ (rn.1 ≠ utf8.RuneError ∨ rn.2 ≠ 1))
        if !contains (inp.take e) 0x5C ∧ !contains (inp.take e) 0x0A ∧ valid then
          some ((inp.take (e - 1)).drop 1, inp.drop e)
        else
          match unquoteLoop quote inp.length (inp.drop 1) [] with
          | none => none
          | some (buf, rest) =>
            match rest with
            | [] => none
            | c :: rest => if c = quote then some (buf, rest) else none
      else none

/-- `strconv.Unquote`: the string that the Go literal `s` quotes; `none` is
the result `("", ErrSyntax)`. -/
def Unquote (s : GoString) : Option GoString :=
  match unquote s with
  | none => none
  | some (out, rem) => if rem.length > 0 then none else some out

end strconv

/-- A Go `error` value. -/
abbrev Error := String

/-! ## go/ast -/

namespace ast

/-- `ast.BasicLit` of kind `token.STRING`: the literal text `Value` at
position `ValuePos`. -/
structure BasicLit where
  ValuePos : Nat
  Value : GoString
  deriving DecidableEq, Repr

/-- `ast.ImportSpec`: one import declaration. -/
structure ImportSpec where
  Name : Option GoString   -- local package name (including "."), or none
  Path : BasicLit          -- import path
  EndPos : Nat             -- end of spec (overrides Path.Pos if nonzero)
  deriving DecidableEq, Repr

/-- `(*ast.BasicLit).End`. -/
def BasicLit.End (x : BasicLit) : Nat := x.ValuePos + x.Value.length

/-- `(*ast.ImportSpec).End`. -/
def ImportSpec.End (s : ImportSpec) : Nat :=
  if s.EndPos ≠ 0 then s.EndPos else s.Path.End

/-- `ast.File`: the import declarations of the file, and in `Body` the rest
of the tree (package clause, other declarations, comments), which the
strategies never read or write. -/
structure File where
  Imports : List ImportSpec
  Body : GoString
  deriving DecidableEq, Repr

end ast

/-! ## golang.org/x/tools/go/ast/astutil -/

namespace astutil

/-- `astutil.importPath`: the unquoted import path of `s`, or `""` if the
path is not properly quoted. -/
def importPath (s : ast.ImportSpec) : GoString :=
  match strconv.Unquote s.Path.Value with
  | none => []
  | some t => t

/-- The loop of `astutil.RewriteImport` over `f.Imports`: the declarations
as the loop leaves them, and `rewrote`. -/
def rewriteLoop (tab : Nat → Bool) (oldPath newPath : GoString) :
    List ast.ImportSpec → Bool → List ast.ImportSpec × Bool
  | [], rewrote => ([], rewrote)
  | imp :: rest, rewrote =>
    if importPath imp = oldPath then
      -- rewrote = true; imp.EndPos = imp.End(); imp.Path.Value = strconv.Quote(newPath)
      let imp1 : ast.ImportSpec := { imp with EndPos := imp.End }
      let imp2 : ast.ImportSpec :=
        { imp1 with Path := { imp1.Path with Value := strconv.Quote tab newPath } }
      let r := rewriteLoop tab oldPath newPath rest true
      (imp2 :: r.1, r.2)
    else
      let r := rewriteLoop tab oldPath newPath rest rewrote
      (imp :: r.1, r.2)

/-- `astutil.RewriteImport(fset, f, oldPath, newPath)`: rewrites any import of
path `oldPath` to path `newPath`; the file as it is afterwards, and
`rewrote`. -/
def RewriteImport (tab : Nat → Bool) (f : ast.File) (oldPath newPath : GoString) :
    ast.File × Bool :=
  let r := rewriteLoop tab oldPath newPath f.Imports false
  ({ f with Imports := r.1 }, r.2)

end astutil

/-! ## main.go -/

/-- The collaborators of the rewrite engine that are not part of it: the
parser and the two printer configurations of the Go tool chain, and the
tables of printable runes of `strconv`. A printer yields the bytes it wrote to
the buffer and its error. -/
structure Env where
  /-- Tables of `strconv.IsPrint` for the runes above `0xFF`. -/
  isPrintTab : Nat → Bool
  /-- Call `parser.ParseFile(fset, path, src, parser.ParseComments)`. -/
  ParseFile : GoString → GoString → ast.File × Option Error
  /-- Call `printer.Fprint(buf, fset, file)`. -/
  Fprint : ast.File → GoString × Option Error
  /-- Call `astPrinter.Fprint(buf, fset, file)` with `astPrinter` the
  `printer.Config{Mode: printer.TabIndent | printer.UseSpaces, Tabwidth: 6}`. -/
  ConfigFprint : ast.File → GoString × Option Error

/-- What a strategy returns, `(*bytes.Buffer, error)`, together with the file
as the strategy leaves it (the strategies mutate the tree in place); `buf` is
`none` for a nil buffer. -/
structure Outcome where
  file : ast.File
  buf : Option GoString
  err : Option Error
  deriving DecidableEq, Repr

/-- The type of `Walker.VisitFile`; of its `*Walker` argument a strategy gets
the fields `origin` and `newPath` that it reads. -/
abbrev Handler := ast.File → GoString → GoString → Outcome

/-- The struct `Walker` (without the file set, which holds positions only). -/
structure Walker where
  origin : GoString
  newPath : GoString
  VisitFile : Handler

/-- `importHandler`: the import-only strategy. -/
def importHandler (env : Env) : Handler := fun file origin newPath =>
  let r := astutil.RewriteImport env.isPrintTab file origin newPath
  let file := r.1
  let s := r.2
  if !s then { file := file, buf := none, err := none }
  else
    let p := env.Fprint file
    match p.2 with
    | some err => { file := file, buf := some p.1, err := some err }
    | none => { file := file, buf := some p.1, err := none }

/-- The loop of `modHandler` over `file.Imports`: the declarations as the
loop leaves them, and `wrote`. -/
def modLoop (tab : Nat → Bool) (origin newPath : GoString) :
    List ast.ImportSpec → Bool → List ast.ImportSpec × Bool
  | [], wrote => ([], wrote)
  | imp :: rest, wrote =>
    if strings.Contains imp.Path.Value origin then
      let newImp := strings.Replace imp.Path.Value origin newPath 1
      -- newImp, _ = strconv.Unquote(newImp)
      let newImp := (strconv.Unquote newImp).getD []
      let imp1 : ast.ImportSpec :=
        { imp with Path := { imp.Path with Value := strconv.Quote tab newImp } }
      let r := modLoop tab origin newPath rest true
      (imp1 :: r.1, r.2)
    else
      let r := modLoop tab origin newPath rest wrote
      (imp :: r.1, r.2)

/-- `modHandler`: the module strategy. -/
def modHandler (env : Env) : Handler := fun file origin newPath =>
  let r := modLoop env.isPrintTab origin newPath file.Imports false
  let file : ast.File := { file with Imports := r.1 }
  let wrote := r.2
  if !wrote then { file := file, buf := some [], err := none }
  else
    let p := env.ConfigFprint file
    match p.2 with
    | some err => { file := file, buf := some p.1, err := some err }
    | none => { file := file, buf := some p.1, err := none }

/-- The walker that `WalkDir` builds: `importHandler`, or `modHandler` when
`mod` is set. -/
def WalkDir.walker (env : Env) (origin newPath : GoString) (mod : Bool) : Walker :=
  let handler := if mod then modHandler env else importHandler env
  { origin := origin, newPath := newPath, VisitFile := handler }

/-- What `Visit` does to the world outside of it, in order. -/
inductive Event where
  | openFile (path : GoString)                 -- os.OpenFile(path, os.O_RDWR, 0644)
  | readAll (path : GoString)                  -- io.ReadAll(file)
  | parseFile (path : GoString)                -- parser.ParseFile
  | logPrintln (err : Error)                   -- log.Println(err)
  | visitFile (path : GoString)                -- w.VisitFile(pkg, w)
  | truncate (path : GoString) (size : Nat)    -- file.Truncate(size)
  | writeAt (path : GoString) (b : GoString)   -- file.WriteAt(b, 0)
  | close (path : GoString)                    -- file.Close()
  deriving DecidableEq, Repr

/-- The file system (the bytes of each regular file, by path) and the events
so far. -/
structure World where
  disk : GoString → Option GoString
  trace : List Event

/-- How the system calls of one `Visit` turn out: the error of each call that
fails, and for a failing `WriteAt` the number of bytes it wrote before. -/
structure Faults where
  openErr : Option Error
  readErr : Option Error
  truncateErr : Option Error
  writeErr : Option (Nat × Error)
  closeErr : Option Error

/-- No system call fails for a reason of its own. -/
def Faults.none : Faults :=
  { openErr := .none, readErr := .none, truncateErr := .none, writeErr := .none,
    closeErr := .none }

/-- A value of `fs.DirEntry`, of which `Visit` calls `IsDir`. The argument of
`Visit` is an `Option DirEntry`: the interface value is nil (`none`) when
`filepath.WalkDir` could not `Lstat` the root. -/
structure DirEntry where
  IsDir : Bool

/-- How a call of `Visit` ends: it returns an error value (`none` for nil), or
it panics. -/
inductive Return where
  | returned (err : Option Error)
  | panicked
  deriving DecidableEq, Repr

/-- The world after one more event. -/
def World.emit (σ : World) (e : Event) : World := { σ with trace := σ.trace ++ [e] }

/-- The world with the bytes of the file at `path` replaced. -/
def World.store (σ : World) (path : GoString) (content : GoString) : World :=
  { σ with disk := fun q => if q = path then some content else σ.disk q }

/-- The bytes of a file after `Truncate(size)`: cut, or extended with zero
bytes, to `size` bytes. -/
def truncated (content : GoString) (size : Nat) : GoString :=
  content.take size ++ List.replicate (size - content.length) 0

/-- The bytes of a file after the bytes `b` were written at offset zero. -/
def written (content b : GoString) : GoString := b ++ content.drop b.length

/-- `(*Walker).Visit`: the callback of the walk for the entry `d` at `path`,
with the error `_err` of the walk, which it does not look at; how the call
ends and the world afterwards. -/
def Walker.Visit (env : Env) (ft : Faults) (w : Walker) (path : GoString)
    (d : Option DirEntry) (_err : Option Error) (σ : World) : Return × World :=
  match d with
  -- d.IsDir() on a nil interface value: nil pointer dereference
  | none => (.panicked, σ)
  | some d =>
    if d.IsDir then (.returned none, σ)
    else if !strings.HasSuffix path (str ".go") then (.returned none, σ)
    else
      -- file, err := os.OpenFile(path, os.O_RDWR, 0644)
      let σ := σ.emit (.openFile path)
      let opened : Except Error GoString :=
        match ft.openErr, σ.disk path with
        | some err, _ => .error err
        | none, none => .error "no such file or directory"
        | none, some content => .ok content
      match opened with
      | .error err => (.returned (some err), σ)
      | .ok content =>
        -- src, err := io.ReadAll(file)
        let σ := σ.emit (.readAll path)
        let src := content
        let err : Option Error := ft.readErr
        match err with
        | some err => (.returned (some err), σ)
        | none =>
          -- pkg, _ := parser.ParseFile(w.fset, path, src, parser.ParseComments)
          let σ := σ.emit (.parseFile path)
          let pkg := (env.ParseFile path src).1
          -- if err != nil: `err` still is the error of io.ReadAll
          match err with
          | some err => (.returned none, σ.emit (.logPrintln err))
          | none =>
            -- buf, err := w.VisitFile(pkg, w)
            let σ := σ.emit (.visitFile path)
            let out := w.VisitFile pkg w.origin w.newPath
            match out.err, out.buf with
            | some _, _ => (.returned none, σ)
            | none, none => (.returned none, σ)
            | none, some buf =>
              let close (σ : World) : Return × World :=
                (.returned ft.closeErr, σ.emit (.close path))
              if buf.length > 0 then
                -- file.Truncate(int64(buf.Len()))
                let σ := σ.emit (.truncate path buf.length)
                match ft.truncateErr with
                | some err => (.returned (some err), σ)
                | none =>
                  let content := truncated content buf.length
                  let σ := σ.store path content
                  -- file.WriteAt(buf.Bytes(), 0)
                  let σ := σ.emit (.writeAt path buf)
                  match ft.writeErr with
                  | some (n, err) =>
                    (.returned (some err), σ.store path (written content (buf.take n)))
                  | none => close (σ.store path (written content buf))
              else close σ

/-! ## Vocabulary of the theorems, and sample inputs -/

/-- Text that a double-quoted literal holds as it stands: no double quote, no
backslash and no newline. -/
def plainText (s : GoString) : Bool :=
  s.all (fun b => b != 0x22 && b != 0x5C && b != 0x0A)

/-- Text of printable ASCII with no double quote and no backslash: the bytes
that `Quote` writes as they stand. -/
def printableText (s : GoString) : Bool :=
  s.all (fun b => decide (0x20 ≤ b.val) && decide (b.val ≤ 0x7E) && b != 0x22 && b != 0x5C)

/-- The literal that is `p` between double quotes. -/
def dquoted (p : GoString) : GoString := 0x22 :: (p ++ [0x22])

/-- A strategy reports a change when it returns no error and a buffer that
holds bytes; this is the test `Visit` makes before it truncates and writes. -/
def Outcome.changed (out : Outcome) : Bool :=
  match out.err, out.buf with
  | none, some b => decide (b.length > 0)
  | _, _ => false

/-- What the strategy of the walker returns for the file at `path` with the
bytes `content`: `w.VisitFile(pkg, w)` on the tree the parser gives. -/
def Walker.outcome (env : Env) (w : Walker) (path content : GoString) : Outcome :=
  w.VisitFile (env.ParseFile path content).1 w.origin w.newPath

/-- An import declaration with the literal `lit` and no local name. -/
def importSpec (lit : GoString) : ast.ImportSpec :=
  { Name := none, Path := { ValuePos := 0, Value := lit }, EndPos := 0 }

/-- A file of package `p` with one import declaration for each literal. -/
def sampleFile (lits : List GoString) : ast.File :=
  { Imports := lits.map importSpec, Body := str "package p" }

/-- The source of a file of package `p` with one import, of the literal
`lit`, followed by `rest`. -/
def sampleSource (lit rest : GoString) : GoString :=
  str "package p; import " ++ lit ++ rest

/-- A rendering of a file: its body, then one line for each import. -/
def render (f : ast.File) : GoString :=
  f.Body ++ (f.Imports.foldr (fun imp acc => str "\nimport " ++ imp.Path.Value ++ acc) [])

/-- A tool chain for evaluating the code on concrete inputs: the parser gives
`parsed` for every source, both printers write `render`, and the runes above
`0xFF` (none occurs in the inputs below) count as printable. -/
def sampleEnv (parsed : ast.File × Option Error) : Env :=
  { isPrintTab := fun _ => true
    ParseFile := fun _ _ => parsed
    Fprint := fun f => (render f, none)
    ConfigFprint := fun f => (render f, none) }

/-- A world whose only file is `m.go`, with the bytes `content`, and in which
nothing has happened yet. -/
def sampleWorld (content : GoString) : World :=
  { disk := fun p => if p = str "m.go" then some content else none, trace := [] }

/-- The visit of `m.go`, a regular file holding `content`, by the walker of
the import-only strategy with origin `a/b` and new path `x/y`, in the sample
tool chain; the walk reports no error for the entry. -/
def sampleVisit (parsed : ast.File × Option Error) (ft : Faults) (content : GoString) :
    Return × World :=
  (WalkDir.walker (sampleEnv parsed) (str "a/b") (str "x/y") false).Visit (sampleEnv parsed) ft
    (str "m.go") (some ⟨false⟩) none (sampleWorld content)

/-! # Theorems -/

open strings utf8 strconv

/-! ## strings: search and replacement -/

theorem HasPrefix_iff (s pre : GoString) : HasPrefix s pre = true ↔ pre <+: s := by
  unfold HasPrefix
  simp only [ge_iff_le, Bool.and_eq_true, decide_eq_true_eq, beq_iff_eq]
  constructor
  · rintro ⟨_, h⟩
    exact h ▸ List.take_prefix _ _
  · rintro ⟨t, rfl⟩
    simp

theorem indexFrom_none (sub : GoString) : ∀ (s : GoString) (i : Nat),
    indexFrom sub s i = none ↔ ¬ sub <:+: s := by
  intro s
  induction s with
  | nil =>
    intro i
    simp only [indexFrom]
    by_cases h : HasPrefix [] sub = true
    · simp only [h, if_true]
      have := (HasPrefix_iff _ _).1 h
      simp [this.isInfix]
    · simp only [h]
      simp only [Bool.false_eq_true, if_false, true_iff]
      intro hin
      apply h
      rw [HasPrefix_iff]
      have : sub = [] := List.eq_nil_of_infix_nil hin
      simp [this]
  | cons b t ih =>
    intro i
    simp only [indexFrom]
    by_cases h : HasPrefix (b :: t) sub = true
    · simp only [h, if_true]
      have := (HasPrefix_iff _ _).1 h
      simp [this.isInfix]
    · simp only [h, Bool.false_eq_true, if_false]
      rw [ih, List.infix_cons_iff]
      rw [HasPrefix_iff] at h
      tauto

theorem indexFrom_shift (sub : GoString) : ∀ (s : GoString) (i : Nat),
    indexFrom sub s i = (indexFrom sub s 0).map (· + i) := by
  intro s
  induction s with
  | nil => intro i; simp only [indexFrom]; split <;> simp
  | cons b t ih =>
    intro i
    simp only [indexFrom]
    split
    · simp
    · rw [ih (i + 1), ih (0 + 1)]
      cases indexFrom sub t 0 <;> simp
      omega

theorem indexFrom_some (sub : GoString) : ∀ (s : GoString) (j : Nat),
    indexFrom sub s 0 = some j → s = s.take j ++ sub ++ s.drop (j + sub.length) := by
  intro s
  induction s with
  | nil =>
    intro j
    simp only [indexFrom]
    split
    · rename_i h
      have := (HasPrefix_iff _ _).1 h
      have : sub = [] := List.eq_nil_of_prefix_nil this
      simp [this]
    · simp
  | cons b t ih =>
    intro j
    simp only [indexFrom]
    split
    · rename_i h
      obtain ⟨u, hu⟩ := (HasPrefix_iff _ _).1 h
      intro hj
      have hj : j = 0 := by simpa using hj.symm
      subst hj
      rw [← hu]
      simp
    · rw [indexFrom_shift]
      cases hk : indexFrom sub t 0 with
      | none => simp
      | some k =>
        intro hj
        have hj : j = k + 1 := by simpa using hj.symm
        subst hj
        have := ih k hk
        simp only [List.take_succ_cons, List.cons_append]
        rw [show k + 1 + sub.length = (k + sub.length) + 1 by omega, List.drop_succ_cons]
        congr 1

theorem Contains_iff (s sub : GoString) : Contains s sub = true ↔ sub <:+: s := by
  unfold Contains Index
  rw [← not_iff_not, ← indexFrom_none sub s 0]
  cases indexFrom sub s 0 <;> simp

theorem Contains_eq_false_iff (s sub : GoString) : Contains s sub = false ↔ ¬ sub <:+: s := by
  rw [← Contains_iff]; simp

theorem Index_eq_none_iff (s sub : GoString) : Index s sub = none ↔ Contains s sub = false := by
  unfold Contains; cases Index s sub <;> simp

theorem Count_eq_zero_iff (s old : GoString) : Count s old = 0 ↔ Index s old = none := by
  unfold Count
  split
  · -- empty
    simp [Index]
    cases s <;> simp [indexFrom, HasPrefix]
  · rename_i c
    rw [Index_eq_none_iff, Contains_eq_false_iff, List.count_eq_zero]
    rw [not_iff_not]
    constructor
    · intro h
      obtain ⟨a, b, hab⟩ := List.append_of_mem h
      exact ⟨a, b, by simp [hab]⟩
    · rintro ⟨a, b, hab⟩
      rw [← hab]; simp
  · rename_i h1 h2
    cases s with
    | nil =>
      simp only [List.length_nil, countLoop, true_iff]
      rw [Index_eq_none_iff, Contains_eq_false_iff]
      intro h
      exact h1 (List.eq_nil_of_infix_nil h)
    | cons b t =>
      simp only [List.length_cons, countLoop]
      cases Index (b :: t) old <;> simp

theorem Replace_one (s old new : GoString) :
    Replace s old new 1 =
      if old = new then s
      else match Index s old with
        | none => s
        | some j => s.take j ++ new ++ s.drop (j + old.length) := by
  unfold Replace
  by_cases h : old = new
  · simp [h]
  · simp only [h, one_ne_zero, or_self, if_false]
    cases hi : Index s old with
    | none =>
      have := (Count_eq_zero_iff s old).2 hi
      simp [this]
    | some j =>
      have hc : Count s old ≠ 0 := by
        rw [Ne, Count_eq_zero_iff, hi]; simp
      have hn : (if (1:Int) < 0 ∨ ((Count s old : Nat) : Int) < 1 then Count s old else (1:Int).toNat) = 1 := by
        rw [if_neg]
        · rfl
        · omega
      simp only [hc, if_false, hn]
      simp only [replaceLoop, List.drop_zero, Nat.lt_irrefl, if_false, Nat.zero_add, Nat.sub_zero, hi, Option.getD_some, gt_iff_lt]
      by_cases hl : old.length = 0
      · have : old = [] := List.length_eq_zero.1 hl
        subst this
        have : j = 0 := by
          cases s <;> simp [Index, indexFrom, HasPrefix] at hi <;> omega
        subst this
        simp
      · simp [hl]

/-! ## unicode/utf8: decoding and encoding -/

theorem byte_eq_iff (n : Nat) (b : Byte) : byte n = b ↔ n % 256 = b.val := by
  unfold byte
  constructor
  · intro h; rw [← h]
  · intro h; exact Fin.ext h

theorem byte_val (n : Nat) : (byte n).val = n % 256 := rfl

theorem byte_of_val (b : Byte) : byte b.val = b := by
  rw [byte_eq_iff]; exact Nat.mod_eq_of_lt b.isLt

set_option maxRecDepth 100000 in
/-- The entries of the table `first` for the bytes outside of ASCII. -/
theorem first_byte : ∀ b : Byte, 0x80 ≤ b.val →
    (first b.val = 0xF1 ∧ (b.val < 0xC2 ∨ 0xF5 ≤ b.val)) ∨
    (first b.val = 0x02 ∧ 0xC2 ≤ b.val ∧ b.val < 0xE0) ∨
    (first b.val = 0x13 ∧ b.val = 0xE0) ∨
    (first b.val = 0x03 ∧ (0xE1 ≤ b.val ∧ b.val < 0xED ∨ 0xEE ≤ b.val ∧ b.val < 0xF0)) ∨
    (first b.val = 0x23 ∧ b.val = 0xED) ∨ (first b.val = 0x34 ∧ b.val = 0xF0) ∨
    (first b.val = 0x04 ∧ 0xF1 ≤ b.val ∧ b.val < 0xF4) ∨
    (first b.val = 0x44 ∧ b.val = 0xF4) := by
  decide

theorem first_spec (b : Nat) (hb : 0x80 ≤ b) (hlt : b < 256) :
    (first b = 0xF1 ∧ (b < 0xC2 ∨ 0xF5 ≤ b)) ∨ (first b = 0x02 ∧ 0xC2 ≤ b ∧ b < 0xE0) ∨
    (first b = 0x13 ∧ b = 0xE0) ∨
    (first b = 0x03 ∧ (0xE1 ≤ b ∧ b < 0xED ∨ 0xEE ≤ b ∧ b < 0xF0)) ∨
    (first b = 0x23 ∧ b = 0xED) ∨ (first b = 0x34 ∧ b = 0xF0) ∨
    (first b = 0x04 ∧ 0xF1 ≤ b ∧ b < 0xF4) ∨ (first b = 0x44 ∧ b = 0xF4) :=
  first_byte ⟨b, hlt⟩ hb

/-- The branches of `DecodeRuneInString` on a string that is not empty. -/
theorem decode_unfold (b0 : Byte) (t : GoString) :
    DecodeRuneInString (b0 :: t) =
      if first b0.val ≥ 0xF0 then (if first b0.val % 2 = 1 then 0xFFFD else b0.val, 1)
      else if t.length + 1 < first b0.val % 8 then (0xFFFD, 1)
      else if byteAt (b0 :: t) 1 < (acceptRanges (first b0.val / 16)).1 ∨
          (acceptRanges (first b0.val / 16)).2 < byteAt (b0 :: t) 1 then (0xFFFD, 1)
      else if first b0.val % 8 ≤ 2 then ((b0.val % 32) * 64 + byteAt (b0 :: t) 1 % 64, 2)
      else if byteAt (b0 :: t) 2 < 0x80 ∨ 0xBF < byteAt (b0 :: t) 2 then (0xFFFD, 1)
      else if first b0.val % 8 ≤ 3 then
        ((b0.val % 16) * 4096 + (byteAt (b0 :: t) 1 % 64) * 64 + byteAt (b0 :: t) 2 % 64, 3)
      else if byteAt (b0 :: t) 3 < 0x80 ∨ 0xBF < byteAt (b0 :: t) 3 then (0xFFFD, 1)
      else ((b0.val % 8) * 262144 + (byteAt (b0 :: t) 1 % 64) * 4096
          + (byteAt (b0 :: t) 2 % 64) * 64 + byteAt (b0 :: t) 3 % 64, 4) := by
  rfl

theorem byteAt_zero (b : Byte) (t : GoString) : byteAt (b :: t) 0 = b.val := rfl
theorem byteAt_succ (b : Byte) (t : GoString) (i : Nat) : byteAt (b :: t) (i + 1) = byteAt t i := rfl
theorem byteAt_lt (s : GoString) (i : Nat) : byteAt s i < 256 := (s.getD i 0).isLt

theorem take_byteAt (s : GoString) : ∀ (k : Nat), k ≤ s.length →
    s.take k = (List.range k).map (fun i => byte (byteAt s i)) := by
  induction s with
  | nil => intro k hk; have : k = 0 := by simpa using hk
           subst this; rfl
  | cons b t ih =>
    intro k hk
    cases k with
    | zero => rfl
    | succ k =>
      rw [List.take_succ_cons, ih k (by simpa using hk), List.range_succ_eq_map, List.map_cons,
        List.map_map]
      simp only [byteAt_zero, byte_of_val, List.cons.injEq, true_and]
      apply List.map_congr_left
      intro i _
      rfl

theorem ValidRune_iff (r : Nat) :
    ValidRune r = true ↔ r < 0xD800 ∨ (0xDFFF < r ∧ r ≤ 0x10FFFF) := by
  unfold ValidRune
  simp only [surrogateMin, surrogateMax, MaxRune]
  split_ifs <;> simp <;> omega

theorem ValidRune_le (r : Nat) (hv : ValidRune r = true) :
    r ≤ 0x10FFFF ∧ (r < 0xD800 ∨ 0xDFFF < r) := by
  rw [ValidRune_iff] at hv; omega

theorem AppendRune_2 (r : Nat) (h1 : 0x80 ≤ r) (h2 : r ≤ 0x7FF) :
    AppendRune r = [byte (0xC0 + r / 64), byte (0x80 + r % 64)] := by
  unfold AppendRune
  simp only [rune1Max, rune2Max]
  rw [if_neg (by omega), if_pos h2]

theorem AppendRune_3 (r : Nat) (h1 : 0x800 ≤ r) (h2 : r ≤ 0xFFFF) (hv : ValidRune r = true) :
    AppendRune r = [byte (0xE0 + r / 4096), byte (0x80 + r / 64 % 64), byte (0x80 + r % 64)] := by
  have := ValidRune_le r hv
  unfold AppendRune
  simp only [rune1Max, rune2Max, rune3Max, surrogateMin, surrogateMax, MaxRune]
  rw [if_neg (by omega), if_neg (by omega), if_neg (by omega), if_pos h2]

theorem AppendRune_4 (r : Nat) (h1 : 0x10000 ≤ r) (hv : ValidRune r = true) :
    AppendRune r = [byte (0xF0 + r / 262144), byte (0x80 + r / 4096 % 64),
      byte (0x80 + r / 64 % 64), byte (0x80 + r % 64)] := by
  have := ValidRune_le r hv
  unfold AppendRune
  simp only [rune1Max, rune2Max, rune3Max, surrogateMin, surrogateMax, MaxRune]
  rw [if_neg (by omega), if_neg (by omega), if_neg (by omega), if_neg (by omega)]

/-- A decoded rune of width two: it is valid, and its encoding is the two bytes. -/
theorem decoded_2 (s : GoString) (a0 a1 : Nat) (h0 : a0 = byteAt s 0) (h1 : a1 = byteAt s 1)
    (hl : 2 ≤ s.length) (r0 : 0xC2 ≤ a0 ∧ a0 < 0xE0) (r1 : 0x80 ≤ a1 ∧ a1 ≤ 0xBF) :
    0x80 ≤ (a0 % 32) * 64 + a1 % 64 ∧ ValidRune ((a0 % 32) * 64 + a1 % 64) = true ∧
    AppendRune ((a0 % 32) * 64 + a1 % 64) = s.take 2 := by
  have hv : ValidRune ((a0 % 32) * 64 + a1 % 64) = true := by rw [ValidRune_iff]; omega
  refine ⟨by omega, hv, ?_⟩
  rw [AppendRune_2 _ (by omega) (by omega), take_byteAt s 2 hl]
  simp only [List.range_succ_eq_map, List.range_zero, List.map_cons, List.map_nil, List.cons.injEq,
    and_true, ← h0, ← h1, byte_eq_iff, byte_val]
  omega

/-- A decoded rune of width three. -/
theorem decoded_3 (s : GoString) (a0 a1 a2 : Nat) (h0 : a0 = byteAt s 0) (h1 : a1 = byteAt s 1)
    (h2 : a2 = byteAt s 2) (hl : 3 ≤ s.length)
    (r0 : (a0 = 0xE0 ∧ 0xA0 ≤ a1 ∧ a1 ≤ 0xBF) ∨ (a0 = 0xED ∧ 0x80 ≤ a1 ∧ a1 ≤ 0x9F) ∨
      ((0xE1 ≤ a0 ∧ a0 < 0xED ∨ 0xEE ≤ a0 ∧ a0 < 0xF0) ∧ 0x80 ≤ a1 ∧ a1 ≤ 0xBF))
    (r2 : 0x80 ≤ a2 ∧ a2 ≤ 0xBF) :
    0x80 ≤ (a0 % 16) * 4096 + (a1 % 64) * 64 + a2 % 64 ∧
    ValidRune ((a0 % 16) * 4096 + (a1 % 64) * 64 + a2 % 64) = true ∧
    AppendRune ((a0 % 16) * 4096 + (a1 % 64) * 64 + a2 % 64) = s.take 3 := by
  have hv : ValidRune ((a0 % 16) * 4096 + (a1 % 64) * 64 + a2 % 64) = true := by
    rw [ValidRune_iff]; omega
  refine ⟨by omega, hv, ?_⟩
  rw [AppendRune_3 _ (by omega) (by omega) hv, take_byteAt s 3 hl]
  simp only [List.range_succ_eq_map, List.range_zero, List.map_cons, List.map_nil, List.cons.injEq,
    and_true, ← h0, ← h1, ← h2, byte_eq_iff, byte_val, Function.comp, Nat.succ_eq_add_one,
    Nat.zero_add, Nat.reduceAdd]
  omega

/-- A decoded rune of width four. -/
theorem decoded_4 (s : GoString) (a0 a1 a2 a3 : Nat) (h0 : a0 = byteAt s 0)
    (h1 : a1 = byteAt s 1) (h2 : a2 = byteAt s 2) (h3 : a3 = byteAt s 3) (hl : 4 ≤ s.length)
    (r0 : (a0 = 0xF0 ∧ 0x90 ≤ a1 ∧ a1 ≤ 0xBF) ∨ (a0 = 0xF4 ∧ 0x80 ≤ a1 ∧ a1 ≤ 0x8F) ∨
      ((0xF1 ≤ a0 ∧ a0 < 0xF4) ∧ 0x80 ≤ a1 ∧ a1 ≤ 0xBF))
    (r2 : 0x80 ≤ a2 ∧ a2 ≤ 0xBF) (r3 : 0x80 ≤ a3 ∧ a3 ≤ 0xBF) :
    0x80 ≤ (a0 % 8) * 262144 + (a1 % 64) * 4096 + (a2 % 64) * 64 + a3 % 64 ∧
    ValidRune ((a0 % 8) * 262144 + (a1 % 64) * 4096 + (a2 % 64) * 64 + a3 % 64) = true ∧
    AppendRune ((a0 % 8) * 262144 + (a1 % 64) * 4096 + (a2 % 64) * 64 + a3 % 64) = s.take 4 := by
  have hv : ValidRune ((a0 % 8) * 262144 + (a1 % 64) * 4096 + (a2 % 64) * 64 + a3 % 64) = true := by
    rw [ValidRune_iff]; omega
  refine ⟨by omega, hv, ?_⟩
  rw [AppendRune_4 _ (by omega) hv, take_byteAt s 4 hl]
  simp only [List.range_succ_eq_map, List.range_zero, List.map_cons, List.map_nil, List.cons.injEq,
    and_true, ← h0, ← h1, ← h2, ← h3, byte_eq_iff, byte_val, Function.comp, Nat.succ_eq_add_one,
    Nat.zero_add, Nat.reduceAdd]
  omega

/-- What `DecodeRuneInString` yields on a string that starts with a byte
outside of ASCII: an error of width one, or a valid rune whose encoding is
the prefix of that width. -/
theorem decode_cases (b0 : Byte) (t : GoString) (hb : b0.val ≥ 0x80) :
    ((DecodeRuneInString (b0 :: t)).2 = 1 ∧ (DecodeRuneInString (b0 :: t)).1 = RuneError) ∨
    (2 ≤ (DecodeRuneInString (b0 :: t)).2 ∧
      (DecodeRuneInString (b0 :: t)).2 ≤ (b0 :: t).length ∧
      0x80 ≤ (DecodeRuneInString (b0 :: t)).1 ∧
      ValidRune (DecodeRuneInString (b0 :: t)).1 = true ∧
      AppendRune (DecodeRuneInString (b0 :: t)).1
        = (b0 :: t).take (DecodeRuneInString (b0 :: t)).2) := by
  have h0 := b0.isLt
  have hz : b0.val = byteAt (b0 :: t) 0 := rfl
  have hlen : (b0 :: t).length = t.length + 1 := rfl
  generalize hd : DecodeRuneInString (b0 :: t) = d
  rw [decode_unfold] at hd
  generalize h1 : byteAt (b0 :: t) 1 = a1 at hd
  generalize h2 : byteAt (b0 :: t) 2 = a2 at hd
  generalize h3 : byteAt (b0 :: t) 3 = a3 at hd
  rcases first_spec b0.val hb h0 with ⟨hf, hr⟩ | ⟨hf, hr⟩ | ⟨hf, hr⟩ | ⟨hf, hr⟩ | ⟨hf, hr⟩ |
    ⟨hf, hr⟩ | ⟨hf, hr⟩ | ⟨hf, hr⟩
  all_goals
    rw [hf] at hd
    simp only [acceptRanges, locb, hicb, Nat.reduceMod, Nat.reduceDiv, Nat.reduceLeDiff,
      ge_iff_le, if_false, if_true] at hd
    (try split_ifs at hd) <;> subst hd <;>
    first
    | exact Or.inl ⟨rfl, rfl⟩
    | (have hk := decoded_2 (b0 :: t) b0.val a1 hz h1.symm (by omega) (by omega) (by omega)
       exact Or.inr ⟨le_refl _, by omega, hk.1, hk.2.1, hk.2.2⟩)
    | (have hk := decoded_3 (b0 :: t) b0.val a1 a2 hz h1.symm h2.symm (by omega) (by omega)
         (by omega)
       exact Or.inr ⟨by omega, by omega, hk.1, hk.2.1, hk.2.2⟩)
    | (have hk := decoded_4 (b0 :: t) b0.val a1 a2 a3 hz h1.symm h2.symm h3.symm (by omega)
         (by omega) (by omega) (by omega)
       exact Or.inr ⟨by omega, by omega, hk.1, hk.2.1, hk.2.2⟩)

theorem first_of_range (b : Nat) (hlt : b < 256) :
    (0xC2 ≤ b ∧ b < 0xE0 → first b = 0x02) ∧ (b = 0xE0 → first b = 0x13) ∧
    ((0xE1 ≤ b ∧ b < 0xED ∨ 0xEE ≤ b ∧ b < 0xF0) → first b = 0x03) ∧
    (b = 0xED → first b = 0x23) ∧ (b = 0xF0 → first b = 0x34) ∧
    (0xF1 ≤ b ∧ b < 0xF4 → first b = 0x04) ∧ (b = 0xF4 → first b = 0x44) := by
  refine ⟨?_, ?_, ?_, ?_, ?_, ?_, ?_⟩ <;> intro h <;>
    rcases first_spec b (by omega) hlt with ⟨hf, hr⟩ | ⟨hf, hr⟩ | ⟨hf, hr⟩ | ⟨hf, hr⟩ |
      ⟨hf, hr⟩ | ⟨hf, hr⟩ | ⟨hf, hr⟩ | ⟨hf, hr⟩ <;> first | exact hf | omega

set_option maxHeartbeats 2000000 in
/-- Decoding the encoding of a valid rune outside of ASCII gives the rune
back, whatever follows. -/
theorem decode_encode (r : Nat) (h : 0x80 ≤ r) (hv : ValidRune r = true) (R : GoString) :
    DecodeRuneInString (AppendRune r ++ R) = (r, (AppendRune r).length) := by
  have hle := ValidRune_le r hv
  have hf := fun b => first_of_range (b % 256) (Nat.mod_lt b (by decide))
  by_cases h2 : r ≤ 0x7FF
  · rw [AppendRune_2 r h h2]
    simp only [List.cons_append, List.nil_append, decode_unfold, byteAt_succ, byteAt_zero, byte_val,
      List.length_cons, List.length_nil]
    rw [(hf _).1 (by omega)]
    simp only [acceptRanges, locb, hicb]
    rw [if_neg (by omega), if_neg (by omega), if_neg (by omega), if_pos (by omega)]
    simp only [Prod.mk.injEq, and_true]
    omega
  · by_cases h3 : r ≤ 0xFFFF
    · rw [AppendRune_3 r (by omega) h3 hv]
      simp only [List.cons_append, List.nil_append, decode_unfold, byteAt_succ, byteAt_zero, byte_val,
        List.length_cons, List.length_nil]
      have hc : (224 + r / 4096) % 256 = 0xE0 ∨ (224 + r / 4096) % 256 = 0xED ∨
          (0xE1 ≤ (224 + r / 4096) % 256 ∧ (224 + r / 4096) % 256 < 0xED ∨
            0xEE ≤ (224 + r / 4096) % 256 ∧ (224 + r / 4096) % 256 < 0xF0) := by omega
      rcases hc with hc | hc | hc
      · rw [(hf _).2.1 hc]
        simp only [acceptRanges, locb, hicb]
        rw [if_neg (by omega), if_neg (by omega), if_neg (by omega), if_neg (by omega),
          if_neg (by omega), if_pos (by omega)]
        simp only [Prod.mk.injEq, and_true]
        omega
      · rw [(hf _).2.2.2.1 hc]
        simp only [acceptRanges, locb, hicb]
        rw [if_neg (by omega), if_neg (by omega), if_neg (by omega), if_neg (by omega),
          if_neg (by omega), if_pos (by omega)]
        simp only [Prod.mk.injEq, and_true]
        omega
      · rw [(hf _).2.2.1 hc]
        simp only [acceptRanges, locb, hicb]
        rw [if_neg (by omega), if_neg (by omega), if_neg (by omega), if_neg (by omega),
          if_neg (by omega), if_pos (by omega)]
        simp only [Prod.mk.injEq, and_true]
        omega
    · rw [AppendRune_4 r (by omega) hv]
      simp only [List.cons_append, List.nil_append, decode_unfold, byteAt_succ, byteAt_zero, byte_val,
        List.length_cons, List.length_nil]
      have hc : (240 + r / 262144) % 256 = 0xF0 ∨ (240 + r / 262144) % 256 = 0xF4 ∨
          (0xF1 ≤ (240 + r / 262144) % 256 ∧ (240 + r / 262144) % 256 < 0xF4) := by omega
      rcases hc with hc | hc | hc
      · rw [(hf _).2.2.2.2.1 hc]
        simp only [acceptRanges, locb, hicb]
        rw [if_neg (by omega), if_neg (by omega), if_neg (by omega), if_neg (by omega),
          if_neg (by omega), if_neg (by omega), if_neg (by omega)]
        simp only [Prod.mk.injEq, and_true]
        omega
      · rw [(hf _).2.2.2.2.2.2 hc]
        simp only [acceptRanges, locb, hicb]
        rw [if_neg (by omega), if_neg (by omega), if_neg (by omega), if_neg (by omega),
          if_neg (by omega), if_neg (by omega), if_neg (by omega)]
        simp only [Prod.mk.injEq, and_true]
        omega
      · rw [(hf _).2.2.2.2.2.1 hc]
        simp only [acceptRanges, locb, hicb]
        rw [if_neg (by omega), if_neg (by omega), if_neg (by omega), if_neg (by omega),
          if_neg (by omega), if_neg (by omega), if_neg (by omega)]
        simp only [Prod.mk.injEq, and_true]
        omega

/-- One iteration of the loop of `ValidString` on a byte of ASCII. -/
theorem validLoop_ascii (f : Nat) (b : Byte) (t : GoString) (h : b.val < 0x80) :
    validLoop (f + 1) (b :: t) = validLoop f t := by
  simp [validLoop, RuneSelf, h]

/-- One iteration of the loop of `ValidString` on a byte outside of ASCII: it
makes the tests that `DecodeRuneInString` makes. -/
theorem validLoop_high (f : Nat) (b : Byte) (t : GoString) (h : 0x80 ≤ b.val) :
    validLoop (f + 1) (b :: t) =
      if (DecodeRuneInString (b :: t)).2 = 1 then false
      else validLoop f ((b :: t).drop (DecodeRuneInString (b :: t)).2) := by
  have hlt := b.isLt
  rw [decode_unfold]
  simp only [validLoop, RuneSelf, List.length_cons]
  rw [if_neg (by omega)]
  rcases first_spec b.val h hlt with ⟨hf, hr⟩ | ⟨hf, hr⟩ | ⟨hf, hr⟩ | ⟨hf, hr⟩ | ⟨hf, hr⟩ |
    ⟨hf, hr⟩ | ⟨hf, hr⟩ | ⟨hf, hr⟩
  all_goals
    rw [hf]
    simp only [xx, acceptRanges, locb, hicb, Nat.reduceMod, Nat.reduceDiv, Nat.reduceLeDiff,
      ge_iff_le, if_false, if_true, Nat.reduceEqDiff, gt_iff_lt]
    try (split_ifs <;> first | rfl | omega)

/-- The bound of the loop of `ValidString` suffices: more iterations change
nothing. -/
theorem validLoop_fuel : ∀ (n : Nat) (s : GoString), s.length ≤ n → ∀ f, s.length ≤ f →
    validLoop f s = validLoop s.length s := by
  intro n
  induction n with
  | zero =>
    intro s hs f _
    have : s = [] := List.length_eq_zero.1 (by omega)
    subst this
    cases f <;> rfl
  | succ n ih =>
    intro s hs f hf
    cases s with
    | nil => cases f <;> rfl
    | cons b t =>
      obtain ⟨f', rfl⟩ : ∃ k, f = k + 1 := ⟨f - 1, by simp at hf; omega⟩
      simp only [List.length_cons] at hs hf ⊢
      by_cases hb : b.val < 0x80
      · rw [validLoop_ascii _ _ _ hb, validLoop_ascii _ _ _ hb]
        exact ih t (by omega) f' (by omega)
      · have hb' : 0x80 ≤ b.val := by omega
        rw [validLoop_high _ _ _ hb', validLoop_high _ _ _ hb']
        rcases decode_cases b t hb' with ⟨hw, _⟩ | ⟨hw2, hwl, _⟩
        · rw [if_pos hw, if_pos hw]
        · rw [if_neg (by omega), if_neg (by omega)]
          have hdl : ((b :: t).drop (DecodeRuneInString (b :: t)).2).length
              = t.length + 1 - (DecodeRuneInString (b :: t)).2 := by
            simp only [List.length_drop, List.length_cons]
          simp only [List.length_cons] at hwl
          rw [ih _ (by omega) f' (by omega), ih _ (by omega) t.length (by omega)]

theorem ValidString_nil : ValidString [] = true := rfl

theorem ValidString_ascii (b : Byte) (t : GoString) (h : b.val < 0x80) :
    ValidString (b :: t) = ValidString t := by
  unfold ValidString
  rw [List.length_cons, validLoop_ascii _ _ _ h]

theorem ValidString_high (b : Byte) (t : GoString) (h : 0x80 ≤ b.val) :
    ValidString (b :: t) =
      if (DecodeRuneInString (b :: t)).2 = 1 then false
      else ValidString ((b :: t).drop (DecodeRuneInString (b :: t)).2) := by
  unfold ValidString
  rw [List.length_cons, validLoop_high _ _ _ h]
  rcases decode_cases b t h with ⟨hw, _⟩ | ⟨hw2, hwl, _⟩
  · rw [if_pos hw, if_pos hw]
  · rw [if_neg (by omega), if_neg (by omega)]
    have hdl : ((b :: t).drop (DecodeRuneInString (b :: t)).2).length
        = t.length + 1 - (DecodeRuneInString (b :: t)).2 := by
      simp only [List.length_drop, List.length_cons]
    simp only [List.length_cons] at hwl
    exact validLoop_fuel _ _ (le_refl _) _ (by omega)

/-- A string that starts with a continuation byte is not valid. -/
theorem ValidString_continuation (b : Byte) (t : GoString) (h : 0x80 ≤ b.val ∧ b.val ≤ 0xBF) :
    ValidString (b :: t) = false := by
  have hlt := b.isLt
  rw [ValidString_high _ _ h.1, decode_unfold]
  rcases first_spec b.val h.1 hlt with ⟨hf, hr⟩ | ⟨hf, hr⟩ | ⟨hf, hr⟩ | ⟨hf, hr⟩ | ⟨hf, hr⟩ |
    ⟨hf, hr⟩ | ⟨hf, hr⟩ | ⟨hf, hr⟩
  · rw [hf]; simp
  all_goals omega

/-- After a valid string, a string is valid exactly when it is valid on its own. -/
theorem ValidString_append : ∀ (n : Nat) (a : GoString), a.length ≤ n → ValidString a = true →
    ∀ b, ValidString (a ++ b) = ValidString b := by
  intro n
  induction n with
  | zero =>
    intro a ha _ b
    have : a = [] := List.length_eq_zero.1 (by omega)
    subst this
    rfl
  | succ n ih =>
    intro a ha hv b
    cases a with
    | nil => rfl
    | cons c a' =>
      simp only [List.length_cons] at ha
      by_cases hc : c.val < 0x80
      · rw [ValidString_ascii _ _ hc] at hv
        rw [List.cons_append, ValidString_ascii _ _ hc]
        exact ih a' (by omega) hv b
      · have hc' : 0x80 ≤ c.val := by omega
        rw [ValidString_high _ _ hc'] at hv
        rcases decode_cases c a' hc' with ⟨hw, _⟩ | ⟨hw2, hwl, hr80, hvr, henc⟩
        · rw [if_pos hw] at hv; exact absurd hv (by decide)
        · rw [if_neg (by omega)] at hv
          have hsplit : c :: a' = AppendRune (DecodeRuneInString (c :: a')).1 ++
              (c :: a').drop (DecodeRuneInString (c :: a')).2 := by
            rw [henc, List.take_append_drop]
          have hlen : (AppendRune (DecodeRuneInString (c :: a')).1).length
              = (DecodeRuneInString (c :: a')).2 := by
            rw [henc, List.length_take]; exact Nat.min_eq_left hwl
          have hdec := decode_encode _ hr80 hvr
            ((c :: a').drop (DecodeRuneInString (c :: a')).2 ++ b)
          rw [← List.append_assoc, ← hsplit, hlen] at hdec
          rw [List.cons_append] at hdec ⊢
          rw [ValidString_high _ _ hc', hdec]
          simp only []
          rw [if_neg (by omega), ← List.cons_append, List.drop_append_of_le_length hwl]
          have hdl : ((c :: a').drop (DecodeRuneInString (c :: a')).2).length
              = a'.length + 1 - (DecodeRuneInString (c :: a')).2 := by
            simp only [List.length_drop, List.length_cons]
          exact ih _ (by omega) hv b

/-- The bytes of an encoding after the first are continuation bytes. -/
theorem AppendRune_tail (r : Nat) (h : 0x80 ≤ r) (hv : ValidRune r = true) :
    ∃ b tl, AppendRune r = b :: tl ∧ ∀ c ∈ tl, 0x80 ≤ c.val ∧ c.val ≤ 0xBF := by
  have hle := ValidRune_le r hv
  by_cases h2 : r ≤ 0x7FF
  · refine ⟨_, _, AppendRune_2 r h h2, ?_⟩
    intro c hc
    simp only [List.mem_cons, List.mem_singleton, List.not_mem_nil, or_false] at hc
    subst hc
    simp only [byte_val]; omega
  · by_cases h3 : r ≤ 0xFFFF
    · refine ⟨_, _, AppendRune_3 r (by omega) h3 hv, ?_⟩
      intro c hc
      simp only [List.mem_cons, List.mem_singleton, List.not_mem_nil, or_false] at hc
      rcases hc with rfl | rfl <;> simp only [byte_val] <;> omega
    · refine ⟨_, _, AppendRune_4 r (by omega) hv, ?_⟩
      intro c hc
      simp only [List.mem_cons, List.mem_singleton, List.not_mem_nil, or_false] at hc
      rcases hc with rfl | rfl | rfl <;> simp only [byte_val] <;> omega

/-- A valid string that goes on, after `pre`, with a byte that is not a
continuation byte is valid up to there. -/
theorem ValidString_prefix : ∀ (n : Nat) (pre : GoString), pre.length ≤ n →
    ∀ (o0 : Byte) (o : GoString), ¬ (0x80 ≤ o0.val ∧ o0.val ≤ 0xBF) →
      ValidString (pre ++ o0 :: o) = true → ValidString pre = true := by
  intro n
  induction n with
  | zero =>
    intro pre hp _ _ _ _
    have : pre = [] := List.length_eq_zero.1 (by omega)
    subst this
    rfl
  | succ n ih =>
    intro pre hp o0 o ho hv
    cases pre with
    | nil => rfl
    | cons c pre' =>
      simp only [List.length_cons] at hp
      rw [List.cons_append] at hv
      by_cases hc : c.val < 0x80
      · rw [ValidString_ascii _ _ hc] at hv ⊢
        exact ih pre' (by omega) o0 o ho hv
      · have hc' : 0x80 ≤ c.val := by omega
        rw [ValidString_high _ _ hc'] at hv
        rcases decode_cases c (pre' ++ o0 :: o) hc' with ⟨hw, _⟩ | ⟨hw2, hwl, hr80, hvr, henc⟩
        · rw [if_pos hw] at hv; exact absurd hv (by decide)
        · rw [if_neg (by omega)] at hv
          generalize hd : DecodeRuneInString (c :: (pre' ++ o0 :: o)) = d at hv hw2 hwl hr80 hvr henc
          by_cases hin : d.2 ≤ pre'.length + 1
          · -- the rune lies within `pre`
            have htake : (c :: (pre' ++ o0 :: o)).take d.2 = (c :: pre').take d.2 := by
              rw [← List.cons_append, List.take_append_of_le_length (by simpa using hin)]
            have hdrop : (c :: (pre' ++ o0 :: o)).drop d.2 = (c :: pre').drop d.2 ++ o0 :: o := by
              rw [← List.cons_append, List.drop_append_of_le_length (by simpa using hin)]
            rw [hdrop] at hv
            rw [htake] at henc
            have hdl : ((c :: pre').drop d.2).length = pre'.length + 1 - d.2 := by
              simp only [List.length_drop, List.length_cons]
            have hrest := ih _ (by omega) o0 o ho hv
            have hlen : (AppendRune d.1).length = d.2 := by
              rw [henc, List.length_take]; exact Nat.min_eq_left (by simpa using hin)
            have hdec := decode_encode d.1 hr80 hvr ((c :: pre').drop d.2)
            rw [henc, List.take_append_drop, ← henc, hlen] at hdec
            rw [ValidString_high _ _ hc', hdec]
            simp only []
            rw [if_neg (by omega)]
            exact hrest
          · -- the rune goes on into `o`: its next byte would be `o0`
            exfalso
            obtain ⟨b, tl, hbt, hcont⟩ := AppendRune_tail d.1 hr80 hvr
            obtain ⟨k, hk⟩ : ∃ k, d.2 = pre'.length + 1 + (k + 1) :=
              ⟨d.2 - (pre'.length + 1) - 1, by omega⟩
            rw [hbt, hk, show pre'.length + 1 + (k + 1) = (pre'.length + (k + 1)) + 1 by omega,
              List.take_succ_cons, List.take_append, List.take_succ_cons] at henc
            have : o0 ∈ tl := by
              have h2 := (List.cons.inj henc).2
              rw [h2]
              simp
            exact ho (hcont o0 this)

/-- Replacing the first `old` in a valid string by a valid `new` gives a
valid string, when `old` is valid. -/
theorem ValidString_Replace (p o n : GoString) (hp : ValidString p = true)
    (ho : ValidString o = true) (hn : ValidString n = true) :
    ValidString (Replace p o n 1) = true := by
  rw [Replace_one]
  split_ifs with hon
  · exact hp
  · cases hi : Index p o with
    | none => exact hp
    | some j =>
      simp only []
      have hsplit := indexFrom_some o p j hi
      cases o with
      | nil =>
        have hj : j = 0 := by
          cases p <;> simp [Index, indexFrom, HasPrefix] at hi <;> omega
        subst hj
        simp only [List.take_zero, List.nil_append, List.length_nil, Nat.add_zero, List.drop_zero]
        rw [ValidString_append _ n (le_refl _) hn]
        exact hp
      | cons o0 o' =>
        have ho0 : ¬ (0x80 ≤ o0.val ∧ o0.val ≤ 0xBF) := by
          intro hc
          rw [ValidString_continuation o0 o' hc] at ho
          exact absurd ho (by decide)
        rw [hsplit, List.append_assoc, List.cons_append] at hp
        have hpre := ValidString_prefix _ _ (le_refl _) o0 _ ho0 hp
        rw [ValidString_append _ _ (le_refl _) hpre, ← List.cons_append,
          ValidString_append _ _ (le_refl _) ho] at hp
        rw [List.append_assoc, ValidString_append _ _ (le_refl _) hpre,
          ValidString_append _ _ (le_refl _) hn]
        exact hp

/-! ## strconv: what `Quote` writes, `Unquote` reads back -/

theorem unhex_lowerhex (n : Nat) (h : n < 16) : unhex (lowerhex n) = some n := by
  unfold unhex lowerhex
  by_cases h10 : n < 10
  · simp only [h10, if_true, byte_val]
    rw [if_pos (by omega)]
    congr 1; omega
  · simp only [h10, if_false, byte_val]
    rw [if_neg (by omega), if_pos (by omega)]
    congr 1; omega

theorem UnquoteChar_x (a b : Nat) (ha : a < 16) (hb : b < 16) (R : GoString) (q : Byte) (hq : q ≠ 0x5C) :
    UnquoteChar (0x5C :: 0x78 :: lowerhex a :: lowerhex b :: R) q = some (a * 16 + b, false, R) := by
  have hq' : ¬ ((0x5C : Byte) = q) := fun h => hq h.symm
  simp only [UnquoteChar, hq', false_and, if_false]
  have e1 : ((0x5C : Byte).val) = 92 := rfl
  simp [unhexLoop, unhex_lowerhex, ha, hb, RuneSelf, e1]

theorem UnquoteChar_u (d3 d2 d1 d0 : Nat) (h3 : d3 < 16) (h2 : d2 < 16) (h1 : d1 < 16) (h0 : d0 < 16)
    (R : GoString) (q : Byte) (hq : q ≠ 0x5C)
    (hv : ValidRune (((d3 * 16 + d2) * 16 + d1) * 16 + d0) = true) :
    UnquoteChar (0x5C :: 0x75 :: lowerhex d3 :: lowerhex d2 :: lowerhex d1 :: lowerhex d0 :: R) q
      = some (((d3 * 16 + d2) * 16 + d1) * 16 + d0, true, R) := by
  have hq' : ¬ ((0x5C : Byte) = q) := fun h => hq h.symm
  simp only [UnquoteChar, hq', false_and, if_false]
  have e1 : ((0x5C : Byte).val) = 92 := rfl
  simp [unhexLoop, unhex_lowerhex, h0, h1, h2, h3, RuneSelf, e1, hv]

theorem UnquoteChar_U (d7 d6 d5 d4 d3 d2 d1 d0 : Nat) (h7 : d7 < 16) (h6 : d6 < 16) (h5 : d5 < 16)
    (h4 : d4 < 16) (h3 : d3 < 16) (h2 : d2 < 16) (h1 : d1 < 16) (h0 : d0 < 16)
    (R : GoString) (q : Byte) (hq : q ≠ 0x5C)
    (hv : ValidRune (((((((d7 * 16 + d6) * 16 + d5) * 16 + d4) * 16 + d3) * 16 + d2) * 16 + d1) * 16 + d0) = true) :
    UnquoteChar (0x5C :: 0x55 :: lowerhex d7 :: lowerhex d6 :: lowerhex d5 :: lowerhex d4 ::
        lowerhex d3 :: lowerhex d2 :: lowerhex d1 :: lowerhex d0 :: R) q
      = some (((((((d7 * 16 + d6) * 16 + d5) * 16 + d4) * 16 + d3) * 16 + d2) * 16 + d1) * 16 + d0, true, R) := by
  have hq' : ¬ ((0x5C : Byte) = q) := fun h => hq h.symm
  simp only [UnquoteChar, hq', false_and, if_false]
  have e1 : ((0x5C : Byte).val) = 92 := rfl
  simp [unhexLoop, unhex_lowerhex, h0, h1, h2, h3, h4, h5, h6, h7, RuneSelf, e1, hv]

/-- The escapes of one letter. -/
theorem UnquoteChar_named (R : GoString) :
    UnquoteChar (0x5C :: 0x61 :: R) 0x22 = some (0x07, false, R) ∧
    UnquoteChar (0x5C :: 0x62 :: R) 0x22 = some (0x08, false, R) ∧
    UnquoteChar (0x5C :: 0x66 :: R) 0x22 = some (0x0C, false, R) ∧
    UnquoteChar (0x5C :: 0x6E :: R) 0x22 = some (0x0A, false, R) ∧
    UnquoteChar (0x5C :: 0x72 :: R) 0x22 = some (0x0D, false, R) ∧
    UnquoteChar (0x5C :: 0x74 :: R) 0x22 = some (0x09, false, R) ∧
    UnquoteChar (0x5C :: 0x76 :: R) 0x22 = some (0x0B, false, R) ∧
    UnquoteChar (0x5C :: 0x5C :: R) 0x22 = some (0x5C, false, R) ∧
    UnquoteChar (0x5C :: 0x22 :: R) 0x22 = some (0x22, false, R) := by
  have e1 : ((0x5C : Byte).val) = 92 := rfl
  refine ⟨?_, ?_, ?_, ?_, ?_, ?_, ?_, ?_, ?_⟩ <;> simp [UnquoteChar, RuneSelf, e1] <;> rfl

/-- A byte of ASCII other than the quote and the backslash stands for itself. -/
theorem UnquoteChar_plain (c : Byte) (R : GoString) (q : Byte) (h1 : c.val < 0x80) (h2 : c ≠ q)
    (h3 : c ≠ 0x5C) : UnquoteChar (c :: R) q = some (c.val, false, R) := by
  simp [UnquoteChar, h2, h3, RuneSelf]
  omega

/-- A byte outside of ASCII starts a rune that is decoded. -/
theorem UnquoteChar_multi (c : Byte) (R : GoString) (q : Byte) (h1 : 0x80 ≤ c.val) (h2 : c ≠ q) :
    UnquoteChar (c :: R) q = some ((DecodeRuneInString (c :: R)).1, true,
      (c :: R).drop (DecodeRuneInString (c :: R)).2) := by
  simp [UnquoteChar, h2, RuneSelf, h1]

theorem IsPrint_ascii (tab : Nat → Bool) (r : Nat) (h : r < 0x80) :
    IsPrint tab r = true ↔ 0x20 ≤ r ∧ r ≤ 0x7E := by
  unfold IsPrint
  rw [if_pos (by omega)]
  by_cases h1 : 0x20 ≤ r ∧ r ≤ 0x7E
  · simp [h1]
  · rw [if_neg h1, if_neg (by omega)]
    simp [h1]

/-- One step of the quoting loop on a byte of ASCII, read back by `UnquoteChar`. -/
theorem stepA (tab : Nat → Bool) (c : Byte) (hc : c.val < 0x80) :
    (∀ R, ∃ v mb, UnquoteChar (appendEscapedRune tab c.val 0x22 ++ R) 0x22 = some (v, mb, R) ∧
      (if v < RuneSelf ∨ !mb then [byte v] else AppendRune v) = [c]) ∧
    ∃ h rest, appendEscapedRune tab c.val 0x22 = h :: rest ∧ h ≠ 0x22 ∧ h ≠ 0x0A ∧
      (h = 0x5C ∨ (appendEscapedRune tab c.val 0x22 = [c] ∧
        (0x5C : Byte) ∉ appendEscapedRune tab c.val 0x22 ∧
        (0x22 : Byte) ∉ appendEscapedRune tab c.val 0x22)) := by
  have e22 : ((0x22 : Byte).val) = 0x22 := rfl
  have hbc : byte c.val = c := byte_of_val c
  have hnamed := fun R => UnquoteChar_named R
  unfold appendEscapedRune
  by_cases h1 : c.val = 0x22
  · have : c = 0x22 := Fin.ext h1
    subst this
    simp only [e22, true_or, if_true]
    refine ⟨fun R => ⟨0x22, false, (hnamed R).2.2.2.2.2.2.2.2, by decide⟩, _, _, rfl, by decide, by decide, Or.inl rfl⟩
  by_cases h2 : c.val = 0x5C
  · have : c = 0x5C := Fin.ext h2
    subst this
    simp only [e22, or_true, if_true]
    refine ⟨fun R => ⟨0x5C, false, (hnamed R).2.2.2.2.2.2.2.1, by decide⟩, _, _, rfl, by decide, by decide, Or.inl rfl⟩
  have h12 : ¬ (c.val = (0x22 : Byte).val ∨ c.val = 0x5C) := by rw [e22]; omega
  rw [if_neg h12]
  by_cases hp : IsPrint tab c.val = true
  · rw [if_pos hp]
    rw [IsPrint_ascii tab _ hc] at hp
    have ha : AppendRune c.val = [c] := by
      unfold AppendRune; rw [if_pos (by simp only [rune1Max]; omega), hbc]
    rw [ha]
    have hne1 : c ≠ 0x22 := fun e => h1 (by rw [e]; rfl)
    have hne2 : c ≠ 0x5C := fun e => h2 (by rw [e]; rfl)
    have hne3 : c ≠ 0x0A := fun e => by
      have : c.val = 10 := by rw [e]; rfl
      omega
    refine ⟨fun R => ⟨c.val, false, UnquoteChar_plain c R _ hc hne1 hne2, by simp [hbc]⟩,
      c, [], rfl, hne1, hne3, Or.inr ⟨rfl, ?_, ?_⟩⟩
    · simpa using hne2.symm
    · simpa using hne1.symm
  · rw [if_neg hp]
    rw [IsPrint_ascii tab _ hc] at hp
    by_cases c7 : c.val = 0x07
    · have : c = 0x07 := Fin.ext c7
      subst this
      exact ⟨fun R => ⟨0x07, false, (hnamed R).1, by decide⟩, _, _, rfl, by decide, by decide, Or.inl rfl⟩
    by_cases c8 : c.val = 0x08
    · have : c = 0x08 := Fin.ext c8
      subst this
      exact ⟨fun R => ⟨0x08, false, (hnamed R).2.1, by decide⟩, _, _, rfl, by decide, by decide, Or.inl rfl⟩
    by_cases cC : c.val = 0x0C
    · have : c = 0x0C := Fin.ext cC
      subst this
      exact ⟨fun R => ⟨0x0C, false, (hnamed R).2.2.1, by decide⟩, _, _, rfl, by decide, by decide, Or.inl rfl⟩
    by_cases cA : c.val = 0x0A
    · have : c = 0x0A := Fin.ext cA
      subst this
      exact ⟨fun R => ⟨0x0A, false, (hnamed R).2.2.2.1, by decide⟩, _, _, rfl, by decide, by decide, Or.inl rfl⟩
    by_cases cD : c.val = 0x0D
    · have : c = 0x0D := Fin.ext cD
      subst this
      exact ⟨fun R => ⟨0x0D, false, (hnamed R).2.2.2.2.1, by decide⟩, _, _, rfl, by decide, by decide, Or.inl rfl⟩
    by_cases c9 : c.val = 0x09
    · have : c = 0x09 := Fin.ext c9
      subst this
      exact ⟨fun R => ⟨0x09, false, (hnamed R).2.2.2.2.2.1, by decide⟩, _, _, rfl, by decide, by decide, Or.inl rfl⟩
    by_cases cB : c.val = 0x0B
    · have : c = 0x0B := Fin.ext cB
      subst this
      exact ⟨fun R => ⟨0x0B, false, (hnamed R).2.2.2.2.2.2.1, by decide⟩, _, _, rfl, by decide, by decide, Or.inl rfl⟩
    rw [if_neg c7, if_neg c8, if_neg cC, if_neg cA, if_neg cD, if_neg c9, if_neg cB,
      if_pos (by omega)]
    have hv : (byte c.val).val = c.val := by rw [hbc]
    rw [hv]
    refine ⟨fun R => ⟨c.val / 16 * 16 + c.val % 16, false,
      UnquoteChar_x _ _ (by omega) (by omega) R _ (by decide), ?_⟩, _, _, rfl, by decide, by decide, Or.inl rfl⟩
    have : c.val / 16 * 16 + c.val % 16 = c.val := by omega
    rw [this]
    simp [hbc]

/-- Every byte of the encoding of a rune outside of ASCII is outside of ASCII. -/
theorem AppendRune_high (r : Nat) (h : 0x80 ≤ r) (hv : ValidRune r = true) :
    ∀ b ∈ AppendRune r, 0x80 ≤ b.val := by
  have hle := ValidRune_le r hv
  by_cases h2 : r ≤ 0x7FF
  · rw [AppendRune_2 r h h2]
    intro b hb
    simp only [List.mem_cons, List.mem_singleton, List.not_mem_nil, or_false] at hb
    rcases hb with rfl | rfl <;> simp only [byte_val] <;> omega
  · by_cases h3 : r ≤ 0xFFFF
    · rw [AppendRune_3 r (by omega) h3 hv]
      intro b hb
      simp only [List.mem_cons, List.mem_singleton, List.not_mem_nil, or_false] at hb
      rcases hb with rfl | rfl | rfl <;> simp only [byte_val] <;> omega
    · rw [AppendRune_4 r (by omega) hv]
      intro b hb
      simp only [List.mem_cons, List.mem_singleton, List.not_mem_nil, or_false] at hb
      rcases hb with rfl | rfl | rfl | rfl <;> simp only [byte_val] <;> omega

theorem appendEscapedRune_high (tab : Nat → Bool) (r : Nat) (h : 0x80 ≤ r) (hv : ValidRune r = true) :
    appendEscapedRune tab r 0x22 =
      if IsPrint tab r then AppendRune r
      else if r < 0x10000 then
        [0x5C, 0x75, lowerhex (r / 4096 % 16), lowerhex (r / 256 % 16), lowerhex (r / 16 % 16),
          lowerhex (r % 16)]
      else
        [0x5C, 0x55, lowerhex (r / 268435456 % 16), lowerhex (r / 16777216 % 16),
          lowerhex (r / 1048576 % 16), lowerhex (r / 65536 % 16), lowerhex (r / 4096 % 16),
          lowerhex (r / 256 % 16), lowerhex (r / 16 % 16), lowerhex (r % 16)] := by
  have e22 : ((0x22 : Byte).val) = 34 := rfl
  unfold appendEscapedRune
  rw [e22, if_neg (by omega)]
  by_cases hp : IsPrint tab r = true
  · rw [if_pos hp, if_pos hp]
  · rw [if_neg hp, if_neg hp, if_neg (by omega), if_neg (by omega), if_neg (by omega),
      if_neg (by omega), if_neg (by omega), if_neg (by omega), if_neg (by omega), if_neg (by omega)]
    simp only [hv, Bool.not_true, Bool.false_eq_true, if_false]

/-- One step of the quoting loop on a byte outside of ASCII, read back by
`UnquoteChar`. -/
theorem stepB (tab : Nat → Bool) (s0 : Byte) (t : GoString) (h0 : 0x80 ≤ s0.val)
    (d : Nat × Nat) (hd : d = DecodeRuneInString (s0 :: t)) (piece : GoString)
    (hpiece : piece = if d.2 = 1 ∧ d.1 = RuneError then
        [0x5C, 0x78, lowerhex (s0.val / 16), lowerhex (s0.val % 16)]
      else appendEscapedRune tab d.1 0x22) :
    1 ≤ d.2 ∧ d.2 ≤ (s0 :: t).length ∧
    (∀ R, ∃ v mb, UnquoteChar (piece ++ R) 0x22 = some (v, mb, R) ∧
      (if v < RuneSelf ∨ !mb then [byte v] else AppendRune v) = (s0 :: t).take d.2) ∧
    ∃ h rest, piece = h :: rest ∧ h ≠ 0x22 ∧ h ≠ 0x0A ∧
      (h = 0x5C ∨ (piece = (s0 :: t).take d.2 ∧ (0x5C : Byte) ∉ piece ∧ (0x22 : Byte) ∉ piece)) := by
  have hlt := s0.isLt
  rcases decode_cases s0 t h0 with ⟨hw, hr⟩ | ⟨hw2, hwl, hr80, hv, henc⟩
  · rw [← hd] at hw hr
    rw [if_pos ⟨hw, hr⟩] at hpiece
    subst hpiece
    rw [hw]
    refine ⟨le_refl _, by simp, fun R => ⟨s0.val / 16 * 16 + s0.val % 16, false,
      UnquoteChar_x _ _ (by omega) (by omega) R _ (by decide), ?_⟩, _, _, rfl, by decide, by decide,
      Or.inl rfl⟩
    have : s0.val / 16 * 16 + s0.val % 16 = s0.val := by omega
    rw [this]
    simp [byte_of_val]
  · rw [← hd] at hw2 hwl hr80 hv henc
    rw [if_neg (by omega), appendEscapedRune_high tab d.1 hr80 hv] at hpiece
    have hle := ValidRune_le d.1 hv
    have htake : (s0 :: t).take d.2 = s0 :: t.take (d.2 - 1) := by
      obtain ⟨k, hk⟩ : ∃ k, d.2 = k + 1 := ⟨d.2 - 1, by omega⟩
      rw [hk]; simp
    have hmb : (if d.1 < RuneSelf ∨ (!true) = true then [byte d.1] else AppendRune d.1)
        = (s0 :: t).take d.2 := by
      rw [if_neg (by simp [RuneSelf]; omega), henc]
    refine ⟨by omega, hwl, ?_, ?_⟩
    · intro R
      by_cases hp : IsPrint tab d.1 = true
      · rw [if_pos hp] at hpiece
        subst hpiece
        refine ⟨d.1, true, ?_, hmb⟩
        have hdec := decode_encode d.1 hr80 hv R
        have hcons : AppendRune d.1 ++ R = s0 :: (t.take (d.2 - 1) ++ R) := by
          rw [henc, htake]; rfl
        rw [hcons] at hdec ⊢
        rw [UnquoteChar_multi s0 _ _ h0 (by intro e; rw [e] at h0; exact absurd h0 (by decide)), hdec]
        rw [← hcons, List.drop_left]
      · rw [if_neg hp] at hpiece
        by_cases h16 : d.1 < 0x10000
        · rw [if_pos h16] at hpiece
          subst hpiece
          have hval : ((d.1 / 4096 % 16 * 16 + d.1 / 256 % 16) * 16 + d.1 / 16 % 16) * 16 + d.1 % 16
              = d.1 := by omega
          refine ⟨d.1, true, ?_, hmb⟩
          have := UnquoteChar_u (d.1 / 4096 % 16) (d.1 / 256 % 16) (d.1 / 16 % 16) (d.1 % 16)
            (by omega) (by omega) (by omega) (by omega) R 0x22 (by decide) (by rw [hval]; exact hv)
          rw [hval] at this
          exact this
        · rw [if_neg h16] at hpiece
          subst hpiece
          have hval : ((((((d.1 / 268435456 % 16 * 16 + d.1 / 16777216 % 16) * 16
              + d.1 / 1048576 % 16) * 16 + d.1 / 65536 % 16) * 16 + d.1 / 4096 % 16) * 16
              + d.1 / 256 % 16) * 16 + d.1 / 16 % 16) * 16 + d.1 % 16 = d.1 := by omega
          refine ⟨d.1, true, ?_, hmb⟩
          have := UnquoteChar_U (d.1 / 268435456 % 16) (d.1 / 16777216 % 16) (d.1 / 1048576 % 16)
            (d.1 / 65536 % 16) (d.1 / 4096 % 16) (d.1 / 256 % 16) (d.1 / 16 % 16) (d.1 % 16)
            (by omega) (by omega) (by omega) (by omega) (by omega) (by omega) (by omega) (by omega)
            R 0x22 (by decide) (by rw [hval]; exact hv)
          rw [hval] at this
          exact this
    · by_cases hp : IsPrint tab d.1 = true
      · rw [if_pos hp] at hpiece
        have hhigh := AppendRune_high d.1 hr80 hv
        rw [← hpiece] at hhigh
        refine ⟨s0, t.take (d.2 - 1), by rw [hpiece, henc, htake], ?_, ?_, Or.inr ⟨by rw [hpiece, henc], ?_, ?_⟩⟩
        · intro e; rw [e] at h0; exact absurd h0 (by decide)
        · intro e; rw [e] at h0; exact absurd h0 (by decide)
        · intro hm; exact absurd (hhigh _ hm) (by decide)
        · intro hm; exact absurd (hhigh _ hm) (by decide)
      · rw [if_neg hp] at hpiece
        by_cases h16 : d.1 < 0x10000
        · rw [if_pos h16] at hpiece
          exact ⟨_, _, hpiece, by decide, by decide, Or.inl rfl⟩
        · rw [if_neg h16] at hpiece
          exact ⟨_, _, hpiece, by decide, by decide, Or.inl rfl⟩

theorem quoteLoop_nil (tab : Nat → Bool) (q : Byte) (fuel : Nat) : quoteLoop tab q fuel [] = [] := by
  cases fuel <;> rfl

/-- One iteration of the quoting loop: the bytes it appends for the first
rune, which `UnquoteChar` reads back as the bytes consumed. -/
theorem quote_step (tab : Nat → Bool) (s0 : Byte) (t : GoString) (fuel : Nat) :
    ∃ piece w, quoteLoop tab 0x22 (fuel + 1) (s0 :: t)
        = piece ++ quoteLoop tab 0x22 fuel ((s0 :: t).drop w) ∧
      1 ≤ w ∧ w ≤ (s0 :: t).length ∧
      (∀ R, ∃ v mb, UnquoteChar (piece ++ R) 0x22 = some (v, mb, R) ∧
        (if v < RuneSelf ∨ !mb then [byte v] else AppendRune v) = (s0 :: t).take w) ∧
      ∃ h rest, piece = h :: rest ∧ h ≠ 0x22 ∧ h ≠ 0x0A ∧
        (h = 0x5C ∨ (piece = (s0 :: t).take w ∧ (0x5C : Byte) ∉ piece ∧ (0x22 : Byte) ∉ piece)) := by
  by_cases h0 : 0x80 ≤ s0.val
  · have hb := stepB tab s0 t h0 _ rfl _ rfl
    refine ⟨_, (DecodeRuneInString (s0 :: t)).2, ?_, hb.1, hb.2.1, hb.2.2.1, hb.2.2.2⟩
    simp only [quoteLoop, RuneSelf, ge_iff_le, h0, if_true]
    split <;> rfl
  · have hlt : s0.val < 0x80 := by omega
    have ha := stepA tab s0 hlt
    refine ⟨appendEscapedRune tab s0.val 0x22, 1, ?_, le_refl _, by simp, ?_, ?_⟩
    · simp only [quoteLoop, RuneSelf, ge_iff_le, h0, if_false]
      rw [if_neg]
      simp only [RuneError]
      omega
    · simpa using ha.1
    · simpa using ha.2

/-- The unquoting loop reads back what the quoting loop wrote. -/
theorem unquoteLoop_quoteLoop (tab : Nat → Bool) : ∀ (n : Nat) (s : GoString), s.length ≤ n →
    ∀ (fq fu : Nat) (buf tail : GoString), s.length ≤ fq →
      (quoteLoop tab 0x22 fq s).length ≤ fu →
      unquoteLoop 0x22 fu (quoteLoop tab 0x22 fq s ++ 0x22 :: tail) buf
        = some (buf ++ s, 0x22 :: tail) := by
  intro n
  induction n with
  | zero =>
    intro s hs fq fu buf tail _ _
    have : s = [] := List.length_eq_zero.1 (by omega)
    subst this
    rw [quoteLoop_nil]
    cases fu <;> simp [unquoteLoop]
  | succ n ih =>
    intro s hs fq fu buf tail hfq hfu
    cases s with
    | nil =>
      rw [quoteLoop_nil]
      cases fu <;> simp [unquoteLoop]
    | cons s0 t =>
      obtain ⟨fq', rfl⟩ : ∃ k, fq = k + 1 := ⟨fq - 1, by simp at hfq; omega⟩
      obtain ⟨piece, w, hq, hw1, hw2, hun, h, rest, hp, hne1, hne2, _⟩ := quote_step tab s0 t fq'
      rw [hq] at hfu ⊢
      have hpl : 1 ≤ piece.length := by rw [hp]; simp
      obtain ⟨fu', rfl⟩ : ∃ k, fu = k + 1 := ⟨fu - 1, by simp at hfu; omega⟩
      obtain ⟨v, mb, hu, hbytes⟩ := hun (quoteLoop tab 0x22 fq' ((s0 :: t).drop w) ++ 0x22 :: tail)
      have hdl : ((s0 :: t).drop w).length ≤ n := by
        simp only [List.length_drop, List.length_cons] at hs ⊢; omega
      have hdl2 : ((s0 :: t).drop w).length ≤ fq' := by
        simp only [List.length_drop, List.length_cons] at hfq ⊢; omega
      have hfu' : (quoteLoop tab 0x22 fq' ((s0 :: t).drop w)).length ≤ fu' := by
        simp only [List.length_append] at hfu; omega
      have := ih _ hdl fq' fu' (buf ++ (s0 :: t).take w) tail hdl2 hfu'
      rw [List.append_assoc, List.take_append_drop] at this
      rw [List.append_assoc]
      rw [hp] at hu ⊢
      simp only [List.cons_append] at hu ⊢
      simp only [unquoteLoop, hne1, if_false, hu, hne2]
      rw [if_neg (by decide)]
      rw [← this]
      congr 1
      by_cases hc : v < RuneSelf ∨ (!mb) = true
      · rw [if_pos hc] at hbytes ⊢; rw [hbytes]
      · rw [if_neg hc] at hbytes ⊢; rw [hbytes]

/-- What the quoting loop writes either has no backslash and no quote and is
the input itself, or has a backslash before its first quote. -/
theorem quoteLoop_raw (tab : Nat → Bool) : ∀ (n : Nat) (s : GoString), s.length ≤ n →
    ∀ (fq : Nat), s.length ≤ fq →
      ((0x22 : Byte) ∉ quoteLoop tab 0x22 fq s ∧ quoteLoop tab 0x22 fq s = s) ∨
      (∃ raw more, quoteLoop tab 0x22 fq s = raw ++ 0x5C :: more ∧ (0x22 : Byte) ∉ raw) := by
  intro n
  induction n with
  | zero =>
    intro s hs fq _
    have : s = [] := List.length_eq_zero.1 (by omega)
    subst this
    rw [quoteLoop_nil]
    exact Or.inl ⟨by simp, rfl⟩
  | succ n ih =>
    intro s hs fq hfq
    cases s with
    | nil =>
      rw [quoteLoop_nil]
      exact Or.inl ⟨by simp, rfl⟩
    | cons s0 t =>
      obtain ⟨fq', rfl⟩ : ∃ k, fq = k + 1 := ⟨fq - 1, by simp at hfq; omega⟩
      obtain ⟨piece, w, hq, hw1, hw2, _, h, rest, hp, _, _, hcase⟩ := quote_step tab s0 t fq'
      rw [hq]
      rcases hcase with hbs | ⟨hraw, _, hnq⟩
      · right
        refine ⟨[], rest ++ quoteLoop tab 0x22 fq' ((s0 :: t).drop w), ?_, by simp⟩
        rw [hp, hbs]; rfl
      · have hdl : ((s0 :: t).drop w).length ≤ n := by
          simp only [List.length_drop, List.length_cons] at hs ⊢; omega
        have hdl2 : ((s0 :: t).drop w).length ≤ fq' := by
          simp only [List.length_drop, List.length_cons] at hfq ⊢; omega
        rcases ih _ hdl fq' hdl2 with ⟨h1, h2⟩ | ⟨raw, more, h1, h2⟩
        · left
          refine ⟨?_, ?_⟩
          · simp only [List.mem_append, not_or]; exact ⟨hnq, h1⟩
          · rw [h2, hraw, List.take_append_drop]
        · right
          refine ⟨piece ++ raw, more, ?_, ?_⟩
          · rw [h1, List.append_assoc]
          · simp only [List.mem_append, not_or]; exact ⟨hnq, h2⟩

theorem indexByte_eq_none_iff (s : GoString) (c : Byte) : index s c = none ↔ c ∉ s := by
  induction s with
  | nil => simp [index]
  | cons b t ih =>
    simp only [index]
    by_cases h : b = c
    · simp [h]
    · simp only [h, if_false, Option.map_eq_none', ih, List.mem_cons, not_or]
      constructor
      · intro h2; exact ⟨fun e => h e.symm, h2⟩
      · intro h2; exact h2.2

theorem contains_iff (s : GoString) (c : Byte) : contains s c = true ↔ c ∈ s := by
  unfold contains
  rw [← not_iff_not, ← indexByte_eq_none_iff]
  cases index s c <;> simp

theorem index_append_of_not_mem (a b : GoString) (c : Byte) (h : c ∉ a) :
    index (a ++ c :: b) c = some a.length := by
  induction a with
  | nil => simp [index]
  | cons x t ih =>
    simp only [List.mem_cons, not_or] at h
    have hx : ¬ x = c := fun e => h.1 e.symm
    simp [index, hx, ih h.2]

theorem index_append_skip (raw rest : GoString) (x c : Byte) (h : c ∉ raw) (hx : x ≠ c) :
    index (raw ++ x :: rest) c = (index rest c).map (· + (raw.length + 1)) := by
  induction raw with
  | nil => simp [index, hx]
  | cons y t ih =>
    simp only [List.mem_cons, not_or] at h
    have hy : ¬ y = c := fun e => h.1 e.symm
    rw [List.cons_append]
    simp only [index, hy, if_false, List.length_cons]
    rw [ih h.2]
    cases index rest c with
    | none => rfl
    | some k => simp only [Option.map_some']; congr 1

theorem unquote_Quote (tab : Nat → Bool) (s : GoString) : unquote (Quote tab s) = some (s, []) := by
  unfold Quote appendQuotedWith
  have hloop := unquoteLoop_quoteLoop tab s.length s (le_refl _) s.length
    ((quoteLoop tab 0x22 s.length s).length + 2) [] [] (le_refl _) (Nat.le_add_right _ _)
  have hraw := quoteLoop_raw tab s.length s (le_refl _) s.length (le_refl _)
  generalize quoteLoop tab 0x22 s.length s = body at hloop hraw ⊢
  unfold unquote
  have hlen : (0x22 :: (body ++ [0x22])).length = body.length + 2 := by simp
  rw [if_neg (by rw [hlen]; omega)]
  simp only [List.getD_cons_zero, List.drop_succ_cons, List.drop_zero]
  have hslow : (match unquoteLoop 0x22 (0x22 :: (body ++ [(0x22 : Byte)])).length (body ++ [0x22]) [] with
      | none => none
      | some (buf, rest) =>
        match rest with
        | [] => none
        | c :: rest => if c = 0x22 then some (buf, rest) else none) = some (s, []) := by
    rw [hlen, hloop]
    simp
  have h96 : ¬ ((0x22 : Byte) = 0x60) := by decide
  have h22 : ((0x22 : Byte) = 0x22 ∨ (0x22 : Byte) = 0x27) := Or.inl rfl
  rcases hraw with ⟨hnq, hbs⟩ | ⟨raw, more, hrm, hnq⟩
  · rw [index_append_of_not_mem body [] 0x22 hnq]
    simp only []
    rw [if_neg h96, if_pos (Or.inl trivial)]
    simp only [if_true]
    split_ifs with hfast
    · have e1 : (0x22 :: (body ++ [(0x22 : Byte)])).take (body.length + 2 - 1) = 0x22 :: body := by
        rw [show body.length + 2 - 1 = body.length + 1 by omega, List.take_succ_cons,
          List.take_left' rfl]
      have e2 : (body ++ [(0x22 : Byte)]).drop (body.length + 1) = [] := by
        apply List.drop_eq_nil_of_le; simp
      rw [e1, e2]
      simp [hbs]
    · exact hslow
  · rw [hrm, List.append_assoc, List.cons_append, index_append_skip raw _ 0x5C 0x22 hnq (by decide)]
    have hix : ∃ e', index (more ++ [(0x22 : Byte)]) 0x22 = some e' := by
      cases hi : index (more ++ [(0x22 : Byte)]) 0x22 with
      | none => rw [indexByte_eq_none_iff] at hi; simp at hi
      | some e' => exact ⟨e', rfl⟩
    obtain ⟨e', he'⟩ := hix
    rw [he']
    simp only [Option.map_some']
    rw [if_neg h96, if_pos (Or.inl trivial)]
    simp only [if_true]
    have hbsin : contains ((0x22 :: (raw ++ 0x5C :: (more ++ [(0x22 : Byte)]))).take
        (e' + (raw.length + 1) + 2)) 0x5C = true := by
      rw [contains_iff, show e' + (raw.length + 1) + 2 = (raw.length + (e' + 2)) + 1 by omega,
        List.take_succ_cons, List.take_append, List.take_succ_cons]
      simp
    rw [if_neg (by rw [hbsin]; simp)]
    rw [hrm, List.append_assoc, List.cons_append] at hslow
    exact hslow

/-- Unquoting a quoted string gives the string back. -/
theorem Unquote_Quote (tab : Nat → Bool) (s : GoString) : Unquote (Quote tab s) = some s := by
  unfold Unquote
  rw [unquote_Quote]
  simp

/-! ## The bounds on the loops suffice -/

/-- The width that `DecodeRuneInString` reports for a string that is not
empty is at least one and at most the length of the string. -/
theorem decode_width (b : Byte) (t : GoString) :
    1 ≤ (DecodeRuneInString (b :: t)).2 ∧ (DecodeRuneInString (b :: t)).2 ≤ t.length + 1 := by
  by_cases hb : 0x80 ≤ b.val
  · rcases decode_cases b t hb with ⟨hw, _⟩ | ⟨hw2, hwl, _⟩
    · omega
    · simp only [List.length_cons] at hwl; omega
  · have hf : first b.val = 0xF0 := by
      unfold first; rw [if_pos (by omega)]; rfl
    rw [decode_unfold, hf]
    simp

/-- The bound of the quoting loop suffices: more iterations change nothing. -/
theorem quoteLoop_fuel (tab : Nat → Bool) (q : Byte) : ∀ (n : Nat) (s : GoString),
    s.length ≤ n → ∀ f, s.length ≤ f → quoteLoop tab q f s = quoteLoop tab q s.length s := by
  intro n
  induction n with
  | zero =>
    intro s hs f _
    have : s = [] := List.length_eq_zero.1 (by omega)
    subst this
    rw [quoteLoop_nil, quoteLoop_nil]
  | succ n ih =>
    intro s hs f hf
    cases s with
    | nil => rw [quoteLoop_nil, quoteLoop_nil]
    | cons b t =>
      obtain ⟨f', rfl⟩ : ∃ k, f = k + 1 := ⟨f - 1, by simp at hf; omega⟩
      simp only [List.length_cons] at hs hf
      have hw := decode_width b t
      have key : ∀ w, 1 ≤ w → w ≤ t.length + 1 →
          quoteLoop tab q f' ((b :: t).drop w) = quoteLoop tab q t.length ((b :: t).drop w) := by
        intro w h1 h2
        have hdl : ((b :: t).drop w).length = t.length + 1 - w := by
          simp only [List.length_drop, List.length_cons]
        rw [ih _ (by omega) f' (by omega), ih _ (by omega) t.length (by omega)]
      simp only [quoteLoop, List.length_cons]
      by_cases hb : b.val ≥ RuneSelf
      · simp only [hb, if_true]
        rw [key _ hw.1 hw.2]
      · simp only [hb, if_false]
        rw [key 1 (le_refl _) (by omega)]

/-- The escape sequences: what `UnquoteChar` leaves after a backslash and
the byte `c` is an end of what follows `c`. -/
theorem UnquoteChar_escape (c : Byte) (s : GoString) (q : Byte) (v : Nat) (mb : Bool)
    (rem : GoString) (h : UnquoteChar (0x5C :: c :: s) q = some (v, mb, rem)) :
    rem.length ≤ s.length := by
  have e1 : ((0x5C : Byte).val) = 92 := rfl
  unfold UnquoteChar at h
  simp only [e1, RuneSelf, ge_iff_le, Nat.reduceLeDiff, if_false, ne_eq, not_true_eq_false] at h
  by_cases hq : (0x5C : Byte) = q ∧ (q = 0x27 ∨ q = 0x22)
  · rw [if_pos hq] at h; exact absurd h (by simp)
  rw [if_neg hq] at h
  have fin : ∀ (x : Nat) (b : Bool) (r : GoString), r.length ≤ s.length →
      some (x, b, r) = some (v, mb, rem) → rem.length ≤ s.length := by
    intro x b r hr he
    simp only [Option.some.injEq, Prod.mk.injEq] at he
    rw [← he.2.2]; exact hr
  by_cases c1 : c = 0x61
  · rw [if_pos c1] at h; exact fin _ _ _ (le_refl _) h
  rw [if_neg c1] at h
  by_cases c2 : c = 0x62
  · rw [if_pos c2] at h; exact fin _ _ _ (le_refl _) h
  rw [if_neg c2] at h
  by_cases c3 : c = 0x66
  · rw [if_pos c3] at h; exact fin _ _ _ (le_refl _) h
  rw [if_neg c3] at h
  by_cases c4 : c = 0x6E
  · rw [if_pos c4] at h; exact fin _ _ _ (le_refl _) h
  rw [if_neg c4] at h
  by_cases c5 : c = 0x72
  · rw [if_pos c5] at h; exact fin _ _ _ (le_refl _) h
  rw [if_neg c5] at h
  by_cases c6 : c = 0x74
  · rw [if_pos c6] at h; exact fin _ _ _ (le_refl _) h
  rw [if_neg c6] at h
  by_cases c7 : c = 0x76
  · rw [if_pos c7] at h; exact fin _ _ _ (le_refl _) h
  rw [if_neg c7] at h
  by_cases c8 : c = 0x78 ∨ c = 0x75 ∨ c = 0x55
  · rw [if_pos c8] at h
    (repeat' (split at h)) <;>
      first | (simp at h; done) | exact fin _ _ _ (by simp) h
  rw [if_neg c8] at h
  by_cases c9 : 0x30 ≤ c.val ∧ c.val ≤ 0x37
  · rw [if_pos c9] at h
    (repeat' (split at h)) <;>
      first | (simp at h; done) | exact fin _ _ _ (by simp) h
  rw [if_neg c9] at h
  by_cases c10 : c = 0x5C
  · rw [if_pos c10] at h; exact fin _ _ _ (le_refl _) h
  rw [if_neg c10] at h
  by_cases c11 : c = 0x27 ∨ c = 0x22
  · rw [if_pos c11] at h
    (repeat' (split at h)) <;>
      first | (simp at h; done) | exact fin _ _ _ (by simp) h
  rw [if_neg c11] at h
  exact absurd h (by simp)

/-- What `UnquoteChar` leaves is shorter than what it was given. -/
theorem UnquoteChar_tail (s : GoString) (q : Byte) (v : Nat) (mb : Bool) (rem : GoString)
    (h : UnquoteChar s q = some (v, mb, rem)) : rem.length < s.length := by
  cases s with
  | nil => simp [UnquoteChar] at h
  | cons c rest =>
    by_cases hq : c = q ∧ (q = 0x27 ∨ q = 0x22)
    · simp [UnquoteChar, hq] at h
    by_cases hc : c.val ≥ RuneSelf
    · have hw := decode_width c rest
      rw [UnquoteChar.eq_def] at h
      simp only [hq, hc, if_true, if_false, Option.some.injEq, Prod.mk.injEq] at h
      rw [← h.2.2]
      simp only [List.length_drop, List.length_cons]
      omega
    by_cases hb : c = 0x5C
    · subst hb
      cases rest with
      | nil => simp [UnquoteChar, hq, hc] at h
      | cons c2 s2 =>
        have := UnquoteChar_escape c2 s2 q v mb rem h
        simp only [List.length_cons]; omega
    · rw [UnquoteChar.eq_def] at h
      simp only [hq, hc, hb, if_true, if_false, ne_eq, not_false_eq_true, Option.some.injEq,
        Prod.mk.injEq] at h
      rw [← h.2.2]; simp

/-- The bound of the unquoting loop suffices: more iterations change nothing. -/
theorem unquoteLoop_fuel (q : Byte) : ∀ (n : Nat) (s : GoString), s.length ≤ n →
    ∀ f buf, s.length ≤ f → unquoteLoop q f s buf = unquoteLoop q s.length s buf := by
  intro n
  induction n with
  | zero =>
    intro s hs f buf _
    have : s = [] := List.length_eq_zero.1 (by omega)
    subst this
    cases f <;> rfl
  | succ n ih =>
    intro s hs f buf hf
    cases s with
    | nil => cases f <;> rfl
    | cons c t =>
      obtain ⟨f', rfl⟩ : ∃ k, f = k + 1 := ⟨f - 1, by simp at hf; omega⟩
      simp only [List.length_cons] at hs hf
      simp only [unquoteLoop, List.length_cons]
      by_cases hc : c = q
      · rw [if_pos hc, if_pos hc]
      · rw [if_neg hc, if_neg hc]
        cases hu : UnquoteChar (c :: t) q with
        | none => rfl
        | some r =>
          obtain ⟨v, mb, rem⟩ := r
          have hl := UnquoteChar_tail _ _ _ _ _ hu
          simp only [List.length_cons] at hl
          simp only []
          by_cases hn : c = 0x0A
          · rw [if_pos hn, if_pos hn]
          · rw [if_neg hn, if_neg hn]
            by_cases h27 : q = 0x27
            · rw [if_pos h27, if_pos h27]
            · rw [if_neg h27, if_neg h27]
              rw [ih rem (by omega) f' _ (by omega), ih rem (by omega) t.length _ (by omega)]

/-! ## The two strategies -/

/-- What `astutil.RewriteImport` makes of one declaration. -/
theorem rewriteLoop_fst (tab : Nat → Bool) (o n : GoString) : ∀ (l : List ast.ImportSpec) (b : Bool),
    (astutil.rewriteLoop tab o n l b).1 = l.map (fun imp =>
      if astutil.importPath imp = o then
        { imp with EndPos := imp.End, Path := { imp.Path with Value := Quote tab n } }
      else imp) := by
  intro l
  induction l with
  | nil => intro b; rfl
  | cons imp rest ih =>
    intro b
    simp only [astutil.rewriteLoop, List.map_cons]
    split
    · rw [ih]
    · rw [ih]

theorem rewriteLoop_snd (tab : Nat → Bool) (o n : GoString) : ∀ (l : List ast.ImportSpec) (b : Bool),
    (astutil.rewriteLoop tab o n l b).2 = (b || l.any (fun imp => decide (astutil.importPath imp = o))) := by
  intro l
  induction l with
  | nil => intro b; simp [astutil.rewriteLoop]
  | cons imp rest ih =>
    intro b
    simp only [astutil.rewriteLoop, List.any_cons]
    split
    · rename_i h; rw [ih]; simp [h]
    · rename_i h; rw [ih]; simp [h]

theorem modLoop_fst (tab : Nat → Bool) (o n : GoString) : ∀ (l : List ast.ImportSpec) (b : Bool),
    (modLoop tab o n l b).1 = l.map (fun imp =>
      if Contains imp.Path.Value o then
        { imp with Path := { imp.Path with
            Value := Quote tab ((Unquote (Replace imp.Path.Value o n 1)).getD []) } }
      else imp) := by
  intro l
  induction l with
  | nil => intro b; rfl
  | cons imp rest ih =>
    intro b
    simp only [modLoop, List.map_cons]
    split
    · rw [ih]
    · rw [ih]

theorem modLoop_snd (tab : Nat → Bool) (o n : GoString) : ∀ (l : List ast.ImportSpec) (b : Bool),
    (modLoop tab o n l b).2 = (b || l.any (fun imp => Contains imp.Path.Value o)) := by
  intro l
  induction l with
  | nil => intro b; simp [modLoop]
  | cons imp rest ih =>
    intro b
    simp only [modLoop, List.any_cons]
    split
    · rename_i h; rw [ih]; simp [h]
    · rename_i h; rw [ih]; simp [h]

/-- The declarations of the file after `importHandler`. -/
theorem importHandler_imports (env : Env) (file : ast.File) (o n : GoString) :
    (importHandler env file o n).file.Imports = file.Imports.map (fun imp =>
      if astutil.importPath imp = o then
        { imp with EndPos := imp.End, Path := { imp.Path with Value := Quote env.isPrintTab n } }
      else imp) := by
  unfold importHandler astutil.RewriteImport
  simp only []
  split
  · exact rewriteLoop_fst _ _ _ _ _
  · split <;> exact rewriteLoop_fst _ _ _ _ _

theorem importHandler_body (env : Env) (file : ast.File) (o n : GoString) :
    (importHandler env file o n).file.Body = file.Body := by
  unfold importHandler astutil.RewriteImport
  simp only []
  split
  · rfl
  · split <;> rfl

/-- The buffer `importHandler` returns is nil exactly when no declaration has the path `origin`. -/
theorem importHandler_buf (env : Env) (file : ast.File) (o n : GoString) :
    (importHandler env file o n).buf = none ↔ ∀ imp ∈ file.Imports, astutil.importPath imp ≠ o := by
  unfold importHandler astutil.RewriteImport
  simp only [rewriteLoop_snd, Bool.false_or]
  split
  · rename_i h
    simp only [Bool.not_eq_true', List.any_eq_false, decide_eq_true_eq] at h
    simp only [true_iff]
    exact h
  · rename_i h
    simp only [Bool.not_eq_true', List.any_eq_false, decide_eq_true_eq] at h
    split <;> simp only [reduceCtorEq, false_iff] <;> exact h

/-- When some declaration has the path `origin`, `importHandler` returns what
the printer wrote. -/
theorem importHandler_match (env : Env) (file : ast.File) (o n : GoString)
    (h : ∃ imp ∈ file.Imports, astutil.importPath imp = o) :
    (importHandler env file o n).buf = some (env.Fprint (importHandler env file o n).file).1 ∧
    (importHandler env file o n).err = (env.Fprint (importHandler env file o n).file).2 := by
  have h1 : (astutil.rewriteLoop env.isPrintTab o n file.Imports false).2 = true := by
    rw [rewriteLoop_snd]; simpa using h
  unfold importHandler astutil.RewriteImport
  simp only [h1]
  constructor
  · simp only [Bool.not_true, Bool.false_eq_true, if_false]
    split <;> rfl
  · simp only [Bool.not_true, Bool.false_eq_true, if_false]
    split <;> simp [*]

/-- The declarations of the file after `modHandler`. -/
theorem modHandler_imports (env : Env) (file : ast.File) (o n : GoString) :
    (modHandler env file o n).file.Imports = file.Imports.map (fun imp =>
      if Contains imp.Path.Value o then
        { imp with Path := { imp.Path with
            Value := Quote env.isPrintTab ((Unquote (Replace imp.Path.Value o n 1)).getD []) } }
      else imp) := by
  unfold modHandler
  simp only []
  split
  · exact modLoop_fst _ _ _ _ _
  · split <;> exact modLoop_fst _ _ _ _ _

theorem modHandler_body (env : Env) (file : ast.File) (o n : GoString) :
    (modHandler env file o n).file.Body = file.Body := by
  unfold modHandler
  simp only []
  split
  · rfl
  · split <;> rfl

/-- When no literal contains `origin`, `modHandler` returns the file as it is
with an empty buffer and no error. -/
theorem modHandler_no_match (env : Env) (file : ast.File) (o n : GoString)
    (h : ∀ imp ∈ file.Imports, Contains imp.Path.Value o = false) :
    modHandler env file o n = { file := file, buf := some [], err := none } := by
  have h1 : (modLoop env.isPrintTab o n file.Imports false).2 = false := by
    rw [modLoop_snd]; simpa using h
  have h2 : (modLoop env.isPrintTab o n file.Imports false).1 = file.Imports := by
    rw [modLoop_fst]
    conv_rhs => rw [← List.map_id file.Imports]
    apply List.map_congr_left
    intro imp himp
    simp [h imp himp]
  unfold modHandler
  simp only [h1, h2]
  rfl

/-- When some literal contains `origin`, `modHandler` returns what the printer wrote. -/
theorem modHandler_match (env : Env) (file : ast.File) (o n : GoString)
    (h : ∃ imp ∈ file.Imports, Contains imp.Path.Value o = true) :
    (modHandler env file o n).buf = some (env.ConfigFprint (modHandler env file o n).file).1 ∧
    (modHandler env file o n).err = (env.ConfigFprint (modHandler env file o n).file).2 := by
  have h1 : (modLoop env.isPrintTab o n file.Imports false).2 = true := by
    rw [modLoop_snd]; simpa using h
  unfold modHandler
  simp only [h1]
  constructor
  · simp only [Bool.not_true, Bool.false_eq_true, if_false]
    split <;> rfl
  · simp only [Bool.not_true, Bool.false_eq_true, if_false]
    split <;> simp [*]

theorem plainText_iff (s : GoString) :
    plainText s = true ↔ ∀ b ∈ s, b ≠ 0x22 ∧ b ≠ 0x5C ∧ b ≠ 0x0A := by
  unfold plainText
  simp [List.all_eq_true, and_assoc]

/-- A plain text of valid UTF-8 between double quotes unquotes to itself. -/
theorem Unquote_dquoted (p : GoString) (hp : plainText p = true) (hv : ValidString p = true) :
    Unquote (dquoted p) = some p := by
  rw [plainText_iff] at hp
  have hnq : (0x22 : Byte) ∉ p := fun h => (hp _ h).1 rfl
  have hnb : (0x5C : Byte) ∉ p := fun h => (hp _ h).2.1 rfl
  have hnn : (0x0A : Byte) ∉ p := fun h => (hp _ h).2.2 rfl
  unfold Unquote unquote dquoted
  have hlen : (0x22 :: (p ++ [(0x22 : Byte)])).length = p.length + 2 := by simp
  rw [if_neg (by rw [hlen]; omega)]
  simp only [List.getD_cons_zero, List.drop_succ_cons, List.drop_zero]
  rw [index_append_of_not_mem p [] 0x22 hnq]
  simp only []
  rw [if_neg (by decide), if_pos (Or.inl trivial)]
  simp only [if_true]
  have e0 : (0x22 :: (p ++ [(0x22 : Byte)])).take (p.length + 2) = 0x22 :: (p ++ [0x22]) := by
    apply List.take_of_length_le; rw [hlen]
  have e1 : (0x22 :: (p ++ [(0x22 : Byte)])).take (p.length + 2 - 1) = 0x22 :: p := by
    rw [show p.length + 2 - 1 = p.length + 1 by omega, List.take_succ_cons, List.take_left' rfl]
  have e2 : (p ++ [(0x22 : Byte)]).drop (p.length + 1) = [] := by
    apply List.drop_eq_nil_of_le; simp
  have c1 : contains (0x22 :: (p ++ [(0x22 : Byte)])) 0x5C = false := by
    rw [← Bool.not_eq_true, contains_iff]; simp [hnb]
  have c2 : contains (0x22 :: (p ++ [(0x22 : Byte)])) 0x0A = false := by
    rw [← Bool.not_eq_true, contains_iff]; simp [hnn]
  rw [e0, e1, e2, c1, c2]
  simp [hv]

theorem HasPrefix_cons_ne (b : Byte) (l o : GoString) (ho : o ≠ []) (hb : b ∉ o) :
    HasPrefix (b :: l) o = false := by
  rw [← Bool.not_eq_true, HasPrefix_iff, List.prefix_cons_iff]
  rintro (h | ⟨t, rfl, _⟩)
  · exact ho h
  · exact hb (List.mem_cons_self _ _)

theorem HasPrefix_concat (b : Byte) (l o : GoString) (hb : b ∉ o) :
    HasPrefix (l ++ [b]) o = HasPrefix l o := by
  rw [Bool.eq_iff_iff, HasPrefix_iff, HasPrefix_iff, List.prefix_concat_iff]
  constructor
  · rintro (h | h)
    · exact absurd (by rw [h]; simp) hb
    · exact h
  · exact Or.inr

theorem indexFrom_concat (b : Byte) (o : GoString) (ho : o ≠ []) (hb : b ∉ o) :
    ∀ (l : GoString) (i : Nat), indexFrom o (l ++ [b]) i = indexFrom o l i := by
  intro l
  induction l with
  | nil =>
    intro i
    have h1 : HasPrefix [b] o = false := HasPrefix_cons_ne b [] o ho hb
    have h2 : HasPrefix [] o = false := by
      rw [← Bool.not_eq_true, HasPrefix_iff]
      intro h; exact ho (List.eq_nil_of_prefix_nil h)
    simp [indexFrom, h1, h2]
  | cons x t ih =>
    intro i
    have := HasPrefix_concat b (x :: t) o hb
    simp only [List.cons_append] at this ⊢
    simp only [indexFrom, this, ih]

/-- Searching a literal between double quotes for a text without double
quote is searching what is between the quotes. -/
theorem Index_dquoted (p o : GoString) (ho : o ≠ []) (hq : (0x22 : Byte) ∉ o) :
    Index (dquoted p) o = (Index p o).map (· + 1) := by
  unfold Index dquoted
  simp only [indexFrom, HasPrefix_cons_ne 0x22 _ o ho hq, Bool.false_eq_true, if_false]
  rw [indexFrom_concat 0x22 o ho hq, indexFrom_shift]

theorem Contains_dquoted (p o : GoString) (ho : o ≠ []) (hq : (0x22 : Byte) ∉ o) :
    Contains (dquoted p) o = Contains p o := by
  unfold Contains
  rw [Index_dquoted p o ho hq]
  cases Index p o <;> rfl

theorem Replace_dquoted (p o n : GoString) (ho : o ≠ []) (hq : (0x22 : Byte) ∉ o) :
    Replace (dquoted p) o n 1 = dquoted (Replace p o n 1) := by
  rw [Replace_one, Replace_one, Index_dquoted p o ho hq]
  by_cases hon : o = n
  · simp [hon]
  · simp only [hon, if_false]
    cases hi : Index p o with
    | none => rfl
    | some j =>
      have hsplit := indexFrom_some o p j hi
      have hjl : j + o.length ≤ p.length := by
        have := congrArg List.length hsplit
        have hol := List.length_pos.2 ho
        simp only [List.length_append, List.length_take, List.length_drop] at this
        omega
      simp only [Option.map_some', dquoted]
      rw [List.take_succ_cons, show j + 1 + o.length = (j + o.length) + 1 by omega,
        List.drop_succ_cons, List.take_append_of_le_length (by omega),
        List.drop_append_of_le_length hjl]
      simp

theorem Replace_mem (p o n : GoString) (b : Byte) (h : b ∈ Replace p o n 1) : b ∈ p ∨ b ∈ n := by
  rw [Replace_one] at h
  split_ifs at h
  · exact Or.inl h
  · split at h
    · exact Or.inl h
    · simp only [List.mem_append] at h
      rcases h with (h | h) | h
      · exact Or.inl (List.mem_of_mem_take h)
      · exact Or.inr h
      · exact Or.inl (List.mem_of_mem_drop h)

theorem plainText_Replace (p o n : GoString) (hp : plainText p = true) (hn : plainText n = true) :
    plainText (Replace p o n 1) = true := by
  rw [plainText_iff] at hp hn ⊢
  intro b hb
  rcases Replace_mem p o n b hb with h | h
  · exact hp b h
  · exact hn b h

theorem printableText_iff (s : GoString) :
    printableText s = true ↔ ∀ b ∈ s, 0x20 ≤ b.val ∧ b.val ≤ 0x7E ∧ b ≠ 0x22 ∧ b ≠ 0x5C := by
  unfold printableText
  simp only [List.all_eq_true, Bool.and_eq_true, decide_eq_true_eq, bne_iff_ne, ne_eq, and_assoc]

theorem printableText_plain (s : GoString) (h : printableText s = true) : plainText s = true := by
  rw [printableText_iff] at h
  rw [plainText_iff]
  intro b hb
  obtain ⟨h1, _, h3, h4⟩ := h b hb
  refine ⟨h3, h4, ?_⟩
  intro h0
  rw [h0] at h1
  exact absurd h1 (by decide)

theorem printableText_valid : ∀ (s : GoString), printableText s = true → ValidString s = true := by
  intro s
  induction s with
  | nil => intro _; exact ValidString_nil
  | cons b t ih =>
    intro h
    rw [printableText_iff] at h
    have hb := h b (List.mem_cons_self _ _)
    rw [ValidString_ascii b t (by omega)]
    apply ih
    rw [printableText_iff]
    intro c hc
    exact h c (List.mem_cons_of_mem _ hc)

theorem printableText_Replace (p o n : GoString) (hp : printableText p = true)
    (hn : printableText n = true) : printableText (Replace p o n 1) = true := by
  rw [printableText_iff] at hp hn ⊢
  intro b hb
  rcases Replace_mem p o n b hb with h | h
  · exact hp b h
  · exact hn b h

/-- A printable byte of ASCII other than the quote and the backslash is
written as it stands. -/
theorem appendEscapedRune_printable (tab : Nat → Bool) (b : Byte) (h1 : 0x20 ≤ b.val)
    (h2 : b.val ≤ 0x7E) (h3 : b ≠ 0x22) (h4 : b ≠ 0x5C) :
    appendEscapedRune tab b.val 0x22 = [b] := by
  have e22 : ((0x22 : Byte).val) = 0x22 := rfl
  have n22 : b.val ≠ 0x22 := fun h => h3 (Fin.ext h)
  have n5c : b.val ≠ 0x5C := fun h => h4 (Fin.ext h)
  unfold appendEscapedRune
  rw [if_neg (by rw [e22]; omega), if_pos ((IsPrint_ascii tab b.val (by omega)).2 ⟨h1, h2⟩)]
  unfold AppendRune
  rw [if_pos (by unfold rune1Max; omega), byte_of_val]

theorem quoteLoop_printable (tab : Nat → Bool) : ∀ (s : GoString) (fuel : Nat),
    printableText s = true → s.length ≤ fuel → quoteLoop tab 0x22 fuel s = s := by
  intro s
  induction s with
  | nil => intro fuel _ _; exact quoteLoop_nil tab _ fuel
  | cons b t ih =>
    intro fuel h hlen
    rw [printableText_iff] at h
    obtain ⟨h1, h2, h3, h4⟩ := h b (List.mem_cons_self _ _)
    have ht : printableText t = true := by
      rw [printableText_iff]
      intro c hc
      exact h c (List.mem_cons_of_mem _ hc)
    cases fuel with
    | zero => simp at hlen
    | succ f =>
      have hf : t.length ≤ f := by simpa using hlen
      have h0 : ¬ 0x80 ≤ b.val := by omega
      simp only [quoteLoop, RuneSelf, ge_iff_le, h0, if_false]
      rw [if_neg (by simp only [RuneError]; omega),
        appendEscapedRune_printable tab b h1 h2 h3 h4]
      simp only [List.drop_succ_cons, List.drop_zero, List.singleton_append]
      rw [ih f ht hf]

/-- Printable text without double quote or backslash is quoted by putting it
between double quotes. -/
theorem Quote_printable (tab : Nat → Bool) (s : GoString) (h : printableText s = true) :
    Quote tab s = dquoted s := by
  unfold Quote appendQuotedWith dquoted
  rw [quoteLoop_printable tab s s.length h (Nat.le_refl _)]

/-- Claim C1. The import-only strategy matches exactly: after `importHandler`
the literal of each import declaration whose unquoted path equals `origin` is
`Quote(newPath)`, and the literal of every other declaration (subpackages of
`origin` included) is the one it had. On the imports `"a/b"`, `"a/b/sub"` and
`"c/d"`, with origin `a/b` and new path `x/y`, the literals become `"x/y"`,
`"a/b/sub"` and `"c/d"`. -/
theorem importHandler_exact_match (env : Env) (file : ast.File) (origin newPath : GoString) :
    ((importHandler env file origin newPath).file.Imports.map (fun imp => imp.Path.Value)
      = file.Imports.map (fun imp =>
          if astutil.importPath imp = origin then Quote env.isPrintTab newPath
          else imp.Path.Value)) ∧
    ((importHandler env
        (sampleFile [dquoted (str "a/b"), dquoted (str "a/b/sub"), dquoted (str "c/d")])
        (str "a/b") (str "x/y")).file.Imports.map (fun imp => imp.Path.Value)
      = [dquoted (str "x/y"), dquoted (str "a/b/sub"), dquoted (str "c/d")]) := by
  have key : ∀ (f : ast.File) (o n : GoString),
      (importHandler env f o n).file.Imports.map (fun imp => imp.Path.Value)
      = f.Imports.map (fun imp =>
          if astutil.importPath imp = o then Quote env.isPrintTab n else imp.Path.Value) := by
    intro f o n
    rw [importHandler_imports, List.map_map]
    apply List.map_congr_left
    intro imp _
    simp only [Function.comp]
    split <;> rfl
  refine ⟨key file origin newPath, ?_⟩
  have hq : Quote env.isPrintTab (str "x/y") = dquoted (str "x/y") := rfl
  rw [key, hq]
  decide

/-- Claim C10. Re-quoting round-trips: the literal that `importHandler` gives
a declaration it rewrites is `Quote(newPath)`, the literal that `modHandler`
gives a declaration it rewrites is `Quote` of the path that results (the
unquoted text of the old literal with the first `origin` replaced), and
unquoting the new literal succeeds and yields exactly that path. -/
theorem requote_round_trips (env : Env) (file : ast.File) (origin newPath : GoString) (i : Nat)
    (imp : ast.ImportSpec) (hi : file.Imports[i]? = some imp) :
    (astutil.importPath imp = origin →
      ∃ imp', (importHandler env file origin newPath).file.Imports[i]? = some imp' ∧
        imp'.Path.Value = Quote env.isPrintTab newPath ∧
        Unquote imp'.Path.Value = some newPath) ∧
    (Contains imp.Path.Value origin = true →
      ∃ imp', (modHandler env file origin newPath).file.Imports[i]? = some imp' ∧
        imp'.Path.Value = Quote env.isPrintTab
          ((Unquote (Replace imp.Path.Value origin newPath 1)).getD []) ∧
        Unquote imp'.Path.Value
          = some ((Unquote (Replace imp.Path.Value origin newPath 1)).getD [])) := by
  constructor
  · intro hm
    rw [importHandler_imports, List.getElem?_map, hi, Option.map_some', if_pos hm]
    exact ⟨_, rfl, rfl, Unquote_Quote _ _⟩
  · intro hm
    rw [modHandler_imports, List.getElem?_map, hi, Option.map_some', if_pos hm]
    exact ⟨_, rfl, rfl, Unquote_Quote _ _⟩

/-- Both strategies rewrite the first (and only) import of a sample file, and
the new literal unquotes to the new path. -/
theorem requote_round_trips_witness :
    (sampleFile [dquoted (str "a/b")]).Imports[0]? = some (importSpec (dquoted (str "a/b"))) ∧
    astutil.importPath (importSpec (dquoted (str "a/b"))) = str "a/b" ∧
    Contains (importSpec (dquoted (str "a/b"))).Path.Value (str "a/b") = true ∧
    (∃ imp', (importHandler (sampleEnv (sampleFile [], none)) (sampleFile [dquoted (str "a/b")])
          (str "a/b") (str "x/y")).file.Imports[0]? = some imp' ∧
        imp'.Path.Value = dquoted (str "x/y") ∧ Unquote imp'.Path.Value = some (str "x/y")) ∧
    (∃ imp', (modHandler (sampleEnv (sampleFile [], none)) (sampleFile [dquoted (str "a/b")])
          (str "a/b") (str "x/y")).file.Imports[0]? = some imp' ∧
        imp'.Path.Value = dquoted (str "x/y") ∧ Unquote imp'.Path.Value = some (str "x/y")) := by
  have h := requote_round_trips (sampleEnv (sampleFile [], none)) (sampleFile [dquoted (str "a/b")])
    (str "a/b") (str "x/y") 0 (importSpec (dquoted (str "a/b"))) (by decide)
  refine ⟨by decide, by decide, by decide, ?_, ?_⟩
  · obtain ⟨imp', h1, h2, h3⟩ := h.1 (by decide)
    exact ⟨imp', h1, h2.trans (by decide), h3⟩
  · obtain ⟨imp', h1, h2, h3⟩ := h.2 (by decide)
    exact ⟨imp', h1, h2.trans (by decide), h3.trans (by decide)⟩

/-- Claim C8, as the code has it. `modHandler` leaves unchanged every import
declaration whose literal (the quoted text) does not contain `origin`; that
is every declaration whose path does not contain `origin` when the literal is
the path between double quotes and `origin` is not empty and has no double
quote. `importHandler` leaves unchanged every import declaration whose
unquoted path is not `origin`. -/
theorem handlers_leave_non_matching (env : Env) (file : ast.File) (origin newPath : GoString)
    (i : Nat) (imp : ast.ImportSpec) (hi : file.Imports[i]? = some imp) :
    (Contains imp.Path.Value origin = false →
      (modHandler env file origin newPath).file.Imports[i]? = some imp) ∧
    (∀ p, imp.Path.Value = dquoted p → origin ≠ [] → (0x22 : Byte) ∉ origin →
      Contains p origin = false →
      (modHandler env file origin newPath).file.Imports[i]? = some imp) ∧
    (astutil.importPath imp ≠ origin →
      (importHandler env file origin newPath).file.Imports[i]? = some imp) := by
  have hmod : Contains imp.Path.Value origin = false →
      (modHandler env file origin newPath).file.Imports[i]? = some imp := by
    intro hm
    rw [modHandler_imports, List.getElem?_map, hi, Option.map_some', if_neg (by simp [hm])]
  refine ⟨hmod, ?_, ?_⟩
  · intro p hp ho hq hc
    apply hmod
    rw [hp, Contains_dquoted p origin ho hq, hc]
  · intro hm
    rw [importHandler_imports, List.getElem?_map, hi, Option.map_some', if_neg hm]

/-- With origin `a/b`, both strategies leave the import `"c/d"` as it is. -/
theorem handlers_leave_non_matching_witness :
    (sampleFile [dquoted (str "a/b"), dquoted (str "c/d")]).Imports[1]?
      = some (importSpec (dquoted (str "c/d"))) ∧
    Contains (dquoted (str "c/d")) (str "a/b") = false ∧
    astutil.importPath (importSpec (dquoted (str "c/d"))) ≠ str "a/b" ∧
    (modHandler (sampleEnv (sampleFile [], none))
      (sampleFile [dquoted (str "a/b"), dquoted (str "c/d")]) (str "a/b") (str "x/y")).file.Imports[1]?
      = some (importSpec (dquoted (str "c/d"))) ∧
    (importHandler (sampleEnv (sampleFile [], none))
      (sampleFile [dquoted (str "a/b"), dquoted (str "c/d")]) (str "a/b") (str "x/y")).file.Imports[1]?
      = some (importSpec (dquoted (str "c/d"))) := by
  have h := handlers_leave_non_matching (sampleEnv (sampleFile [], none))
    (sampleFile [dquoted (str "a/b"), dquoted (str "c/d")]) (str "a/b") (str "x/y") 1
    (importSpec (dquoted (str "c/d"))) (by decide)
  exact ⟨by decide, by decide, by decide, h.1 (by decide), h.2.2 (by decide)⟩

/-- Claim C8 fails as stated. The import `"a\x2fb"` has the path `a/b`, which
does not contain `x2f`; its literal does, and `modHandler` with origin `x2f`
and new path `y` turns the literal into `""`. -/
theorem modHandler_mutates_non_matching_path :
    astutil.importPath (importSpec (dquoted (str "a" ++ [0x5C] ++ str "x2fb"))) = str "a/b" ∧
    Contains (str "a/b") (str "x2f") = false ∧
    (modHandler (sampleEnv (sampleFile [], none))
        (sampleFile [dquoted (str "a" ++ [0x5C] ++ str "x2fb")])
        (str "x2f") (str "y")).file.Imports.map (fun imp => imp.Path.Value)
      = [dquoted []] ∧
    dquoted [] ≠ dquoted (str "a" ++ [0x5C] ++ str "x2fb") := by
  decide

/-- Claim C2 fails as stated. The import `"a\x2fb/sub"` has the path
`a/b/sub`, which contains the origin `a/b`; the literal does not, so
`modHandler` leaves it alone and the path is still `a/b/sub`, not `x/y/sub`. -/
theorem modHandler_escaped_literal_not_rewritten :
    astutil.importPath (importSpec (dquoted (str "a" ++ [0x5C] ++ str "x2fb/sub"))) = str "a/b/sub" ∧
    Contains (str "a/b/sub") (str "a/b") = true ∧
    Replace (str "a/b/sub") (str "a/b") (str "x/y") 1 = str "x/y/sub" ∧
    (modHandler (sampleEnv (sampleFile [], none))
        (sampleFile [dquoted (str "a" ++ [0x5C] ++ str "x2fb/sub")])
        (str "a/b") (str "x/y")).file.Imports.map astutil.importPath
      = [str "a/b/sub"] := by
  decide

/-- Claim C2, as the code has it. The module strategy preserves the subpath
suffix of an import whose literal is its path between double quotes: when the
path, `origin` and `newPath` are valid UTF-8, the path and `newPath` have no
double quote, backslash or newline, and `origin` is not empty and has no
double quote, then, if the path contains `origin`, the unquoted path after
`modHandler` is the original path with the first occurrence of `origin`
replaced by `newPath`. -/
theorem modHandler_plain_literal_replaces_first (env : Env) (file : ast.File)
    (origin newPath : GoString) (i : Nat) (imp : ast.ImportSpec) (p : GoString)
    (hi : file.Imports[i]? = some imp) (hlit : imp.Path.Value = dquoted p)
    (hp : plainText p = true) (hvp : ValidString p = true)
    (ho : origin ≠ []) (hoq : (0x22 : Byte) ∉ origin) (hvo : ValidString origin = true)
    (hn : plainText newPath = true) (hvn : ValidString newPath = true)
    (hc : Contains (astutil.importPath imp) origin = true) :
    astutil.importPath imp = p ∧
    ∃ imp', (modHandler env file origin newPath).file.Imports[i]? = some imp' ∧
      astutil.importPath imp' = Replace (astutil.importPath imp) origin newPath 1 := by
  have hpath : astutil.importPath imp = p := by
    unfold astutil.importPath
    rw [hlit, Unquote_dquoted p hp hvp]
  rw [hpath] at hc ⊢
  refine ⟨rfl, ?_⟩
  have hcl : Contains imp.Path.Value origin = true := by
    rw [hlit, Contains_dquoted p origin ho hoq, hc]
  rw [modHandler_imports, List.getElem?_map, hi, Option.map_some', if_pos hcl]
  refine ⟨_, rfl, ?_⟩
  unfold astutil.importPath
  simp only []
  rw [Unquote_Quote, hlit, Replace_dquoted p origin newPath ho hoq,
    Unquote_dquoted _ (plainText_Replace p origin newPath hp hn)
      (ValidString_Replace p origin newPath hvp hvo hvn)]
  rfl

/-- With origin `a/b` and new path `x/y`, the import `"a/b/sub/pkg"` becomes
`x/y/sub/pkg`. -/
theorem modHandler_plain_literal_replaces_first_witness :
    ∃ imp', (modHandler (sampleEnv (sampleFile [], none)) (sampleFile [dquoted (str "a/b/sub/pkg")])
        (str "a/b") (str "x/y")).file.Imports[0]? = some imp' ∧
      astutil.importPath imp' = str "x/y/sub/pkg" := by
  have h := modHandler_plain_literal_replaces_first (sampleEnv (sampleFile [], none))
    (sampleFile [dquoted (str "a/b/sub/pkg")]) (str "a/b") (str "x/y") 0
    (importSpec (dquoted (str "a/b/sub/pkg"))) (str "a/b/sub/pkg") (by decide) (by decide)
    (by decide) (by decide) (by decide) (by decide) (by decide) (by decide) (by decide)
    (by decide)
  obtain ⟨imp', h1, h2⟩ := h.2
  exact ⟨imp', h1, h2.trans (by decide)⟩

/-- Claim C3 fails as stated. With origin `a/b` and new path `a/b/v2`, which
contains the origin, a first run of `modHandler` turns the import `"a/b/x"`
into `"a/b/v2/x"`; the literal still contains the origin, and a second run
turns it into `"a/b/v2/v2/x"` and returns the printed file, not an empty
buffer. With origin `a/b` and new path `x/y`, which does not contain the
origin, the import `"a/b/a/b"`, in which the origin occurs twice, becomes
`"x/y/a/b"` in the first run and `"x/y/x/y"` in the second, which again
returns the printed file. -/
theorem modHandler_second_run_rewrites_again :
    ((modHandler (sampleEnv (sampleFile [], none)) (sampleFile [dquoted (str "a/b/x")])
        (str "a/b") (str "a/b/v2")).file.Imports.map (fun imp => imp.Path.Value)
      = [dquoted (str "a/b/v2/x")] ∧
    (modHandler (sampleEnv (sampleFile [], none))
        (modHandler (sampleEnv (sampleFile [], none)) (sampleFile [dquoted (str "a/b/x")])
          (str "a/b") (str "a/b/v2")).file
        (str "a/b") (str "a/b/v2")).file.Imports.map (fun imp => imp.Path.Value)
      = [dquoted (str "a/b/v2/v2/x")] ∧
    (modHandler (sampleEnv (sampleFile [], none))
        (modHandler (sampleEnv (sampleFile [], none)) (sampleFile [dquoted (str "a/b/x")])
          (str "a/b") (str "a/b/v2")).file
        (str "a/b") (str "a/b/v2")).buf ≠ some []) ∧
    (Contains (str "x/y") (str "a/b") = false ∧
    (modHandler (sampleEnv (sampleFile [], none)) (sampleFile [dquoted (str "a/b/a/b")])
        (str "a/b") (str "x/y")).file.Imports.map (fun imp => imp.Path.Value)
      = [dquoted (str "x/y/a/b")] ∧
    (modHandler (sampleEnv (sampleFile [], none))
        (modHandler (sampleEnv (sampleFile [], none)) (sampleFile [dquoted (str "a/b/a/b")])
          (str "a/b") (str "x/y")).file
        (str "a/b") (str "x/y")).file.Imports.map (fun imp => imp.Path.Value)
      = [dquoted (str "x/y/x/y")] ∧
    (modHandler (sampleEnv (sampleFile [], none))
        (modHandler (sampleEnv (sampleFile [], none)) (sampleFile [dquoted (str "a/b/a/b")])
          (str "a/b") (str "x/y")).file
        (str "a/b") (str "x/y")).buf ≠ some []) := by
  decide

/-- What the first run of `modHandler` does to an import declaration whose
literal contains `origin` and is a printable path between double quotes: the
new literal is the path with the first occurrence of `origin` replaced by
`newPath`, between double quotes, and it contains `origin` exactly when the
replaced path does. -/
theorem modLoop_printable_literal (tab : Nat → Bool) (origin newPath : GoString)
    (ho : origin ≠ []) (hoq : (0x22 : Byte) ∉ origin) (hn : printableText newPath = true)
    (imp : ast.ImportSpec) (p : GoString) (hlit : imp.Path.Value = dquoted p)
    (hp : printableText p = true) :
    astutil.importPath imp = p ∧
    Quote tab ((Unquote (Replace imp.Path.Value origin newPath 1)).getD [])
      = dquoted (Replace p origin newPath 1) ∧
    Contains (dquoted (Replace p origin newPath 1)) origin
      = Contains (Replace p origin newPath 1) origin := by
  have hq := printableText_Replace p origin newPath hp hn
  refine ⟨?_, ?_, Contains_dquoted _ origin ho hoq⟩
  · have hu : Unquote imp.Path.Value = some p := by
      rw [hlit]
      exact Unquote_dquoted p (printableText_plain p hp) (printableText_valid p hp)
    simp only [astutil.importPath, hu]
  · rw [hlit, Replace_dquoted p origin newPath ho hoq,
      Unquote_dquoted _ (printableText_plain _ hq) (printableText_valid _ hq)]
    exact Quote_printable tab _ hq

/-- Claim C3, as the code has it. Take a file in which every import literal
that contains `origin` is a path of printable ASCII, without double quote or
backslash, between double quotes; `origin` is not empty and has no double
quote, and `newPath` is printable ASCII without double quote or backslash.
The first run of `modHandler` turns each literal that contains `origin` into
its path with the first occurrence of `origin` replaced by `newPath`, between
double quotes, and leaves the others. If none of the replaced paths contains
`origin`, the second run with the same `origin` and `newPath` finds no
substring match, returns an empty buffer and no error, and leaves the file,
every import literal included, as the first run left it. If one of the
replaced paths contains `origin`, the second run matches again and returns
what the printer wrote. -/
theorem modHandler_second_run_idempotent (env : Env) (file : ast.File) (origin newPath : GoString)
    (ho : origin ≠ []) (hoq : (0x22 : Byte) ∉ origin) (hn : printableText newPath = true)
    (hfile : ∀ imp ∈ file.Imports, Contains imp.Path.Value origin = true →
      ∃ p, imp.Path.Value = dquoted p ∧ printableText p = true) :
    (modHandler env file origin newPath).file.Imports.map (fun imp => imp.Path.Value)
      = file.Imports.map (fun imp =>
          if Contains imp.Path.Value origin then
            dquoted (Replace (astutil.importPath imp) origin newPath 1)
          else imp.Path.Value) ∧
    ((∀ imp ∈ file.Imports, Contains imp.Path.Value origin = true →
        Contains (Replace (astutil.importPath imp) origin newPath 1) origin = false) →
      (∀ imp ∈ (modHandler env file origin newPath).file.Imports,
        Contains imp.Path.Value origin = false) ∧
      modHandler env (modHandler env file origin newPath).file origin newPath
        = { file := (modHandler env file origin newPath).file, buf := some [], err := none }) ∧
    ((∃ imp ∈ file.Imports, Contains imp.Path.Value origin = true ∧
        Contains (Replace (astutil.importPath imp) origin newPath 1) origin = true) →
      (∃ imp ∈ (modHandler env file origin newPath).file.Imports,
        Contains imp.Path.Value origin = true) ∧
      (modHandler env (modHandler env file origin newPath).file origin newPath).buf
        = some (env.ConfigFprint
            (modHandler env (modHandler env file origin newPath).file origin newPath).file).1 ∧
      (modHandler env (modHandler env file origin newPath).file origin newPath).err
        = (env.ConfigFprint
            (modHandler env (modHandler env file origin newPath).file origin newPath).file).2) := by
  refine ⟨?_, ?_, ?_⟩
  · rw [modHandler_imports, List.map_map]
    apply List.map_congr_left
    intro imp himp
    simp only [Function.comp]
    by_cases hc : Contains imp.Path.Value origin = true
    · obtain ⟨p, hlit, hp⟩ := hfile imp himp hc
      obtain ⟨h1, h2, _⟩ :=
        modLoop_printable_literal env.isPrintTab origin newPath ho hoq hn imp p hlit hp
      rw [if_pos hc, if_pos hc, h1]
      exact h2
    · rw [if_neg hc, if_neg hc]
  · intro hclean
    have hno : ∀ imp ∈ (modHandler env file origin newPath).file.Imports,
        Contains imp.Path.Value origin = false := by
      intro imp1 himp1
      rw [modHandler_imports] at himp1
      obtain ⟨imp, himp, rfl⟩ := List.mem_map.1 himp1
      by_cases hc : Contains imp.Path.Value origin = true
      · obtain ⟨p, hlit, hp⟩ := hfile imp himp hc
        obtain ⟨h1, h2, h3⟩ :=
          modLoop_printable_literal env.isPrintTab origin newPath ho hoq hn imp p hlit hp
        have hcl := hclean imp himp hc
        rw [h1] at hcl
        rw [if_pos hc]
        simp only []
        rw [h2, h3]
        exact hcl
      · rw [if_neg hc]
        simpa using hc
    exact ⟨hno, modHandler_no_match env _ origin newPath hno⟩
  · rintro ⟨imp, himp, hc, hagain⟩
    obtain ⟨p, hlit, hp⟩ := hfile imp himp hc
    obtain ⟨h1, h2, h3⟩ :=
      modLoop_printable_literal env.isPrintTab origin newPath ho hoq hn imp p hlit hp
    rw [h1] at hagain
    have hex : ∃ imp1 ∈ (modHandler env file origin newPath).file.Imports,
        Contains imp1.Path.Value origin = true := by
      have hmem : ∃ imp1 ∈ (modHandler env file origin newPath).file.Imports,
          imp1.Path.Value
            = Quote env.isPrintTab ((Unquote (Replace imp.Path.Value origin newPath 1)).getD []) := by
        rw [modHandler_imports]
        exact ⟨_, List.mem_map_of_mem _ himp, by rw [if_pos hc]⟩
      obtain ⟨imp1, himp1, hv⟩ := hmem
      refine ⟨imp1, himp1, ?_⟩
      rw [hv, h2, h3]
      exact hagain
    exact ⟨hex, modHandler_match env _ origin newPath hex⟩

/-- With origin `a/b` and new path `x/y`, the first run turns the imports
`"a/b/sub"` and `"c/d"` into `"x/y/sub"` and `"c/d"`, and the second run on
them is a no-op. -/
theorem modHandler_second_run_idempotent_witness :
    (modHandler (sampleEnv (sampleFile [], none))
        (sampleFile [dquoted (str "a/b/sub"), dquoted (str "c/d")])
        (str "a/b") (str "x/y")).file = sampleFile [dquoted (str "x/y/sub"), dquoted (str "c/d")] ∧
    modHandler (sampleEnv (sampleFile [], none))
        (modHandler (sampleEnv (sampleFile [], none))
          (sampleFile [dquoted (str "a/b/sub"), dquoted (str "c/d")]) (str "a/b") (str "x/y")).file
        (str "a/b") (str "x/y")
      = { file := (modHandler (sampleEnv (sampleFile [], none))
            (sampleFile [dquoted (str "a/b/sub"), dquoted (str "c/d")]) (str "a/b") (str "x/y")).file,
          buf := some [], err := none } :=
  have h := modHandler_second_run_idempotent (sampleEnv (sampleFile [], none))
    (sampleFile [dquoted (str "a/b/sub"), dquoted (str "c/d")]) (str "a/b") (str "x/y")
    (by decide) (by decide) (by decide)
    (by
      intro imp himp _
      simp only [sampleFile, List.map_cons, List.map_nil, List.mem_cons, List.mem_singleton,
        List.not_mem_nil, or_false] at himp
      rcases himp with rfl | rfl
      · exact ⟨str "a/b/sub", rfl, by decide⟩
      · exact ⟨str "c/d", rfl, by decide⟩)
  ⟨by decide, (h.2.1 (by decide)).2⟩

/-- Claim C7 fails as stated. With `origin` and `newPath` both `a/b`,
`importHandler` returns a buffer for a file with the import `"a/b"`, and
no import literal is different after the substitution. -/
theorem importHandler_reports_change_without_difference :
    (importHandler (sampleEnv (sampleFile [], none)) (sampleFile [dquoted (str "a/b")])
        (str "a/b") (str "a/b")).buf ≠ none ∧
    (importHandler (sampleEnv (sampleFile [], none)) (sampleFile [dquoted (str "a/b")])
        (str "a/b") (str "a/b")).file.Imports.map (fun imp => imp.Path.Value)
      = (sampleFile [dquoted (str "a/b")]).Imports.map (fun imp => imp.Path.Value) := by
  decide

/-- Claim C7, as the code has it. `importHandler` returns a buffer of
serialized bytes only if the unquoted path of at least one import declaration
equals `origin`; when `origin` and `newPath` differ, the literal of such a
declaration is different after the substitution than before it. -/
theorem importHandler_change_only_if_matched (env : Env) (file : ast.File)
    (origin newPath : GoString) (h : (importHandler env file origin newPath).buf ≠ none) :
    (∃ imp ∈ file.Imports, astutil.importPath imp = origin) ∧
    (origin ≠ newPath → ∃ (i : Nat) (imp imp' : ast.ImportSpec), file.Imports[i]? = some imp ∧
      (importHandler env file origin newPath).file.Imports[i]? = some imp' ∧
      imp'.Path.Value ≠ imp.Path.Value) := by
  have hex : ∃ imp ∈ file.Imports, astutil.importPath imp = origin := by
    by_contra hne
    apply h
    rw [importHandler_buf]
    intro imp himp heq
    exact hne ⟨imp, himp, heq⟩
  refine ⟨hex, ?_⟩
  intro hon
  obtain ⟨imp, himp, heq⟩ := hex
  obtain ⟨i, hi⟩ := List.mem_iff_getElem?.1 himp
  have hout : (importHandler env file origin newPath).file.Imports[i]? = some
      ({ imp with EndPos := imp.End,
                  Path := { imp.Path with Value := Quote env.isPrintTab newPath } }) := by
    rw [importHandler_imports, List.getElem?_map, hi, Option.map_some', if_pos heq]
  refine ⟨i, imp, _, hi, hout, ?_⟩
  intro hv
  simp only [] at hv
  apply hon
  rw [← heq]
  unfold astutil.importPath
  rw [← hv, Unquote_Quote]

/-- With origin `a/b` and new path `x/y`, `importHandler` returns a buffer for
a file that imports `"a/b"`, and the literal of that import is different. -/
theorem importHandler_change_only_if_matched_witness :
    (importHandler (sampleEnv (sampleFile [], none)) (sampleFile [dquoted (str "a/b")])
        (str "a/b") (str "x/y")).buf ≠ none ∧
    (∃ imp ∈ (sampleFile [dquoted (str "a/b")]).Imports, astutil.importPath imp = str "a/b") ∧
    ∃ (i : Nat) (imp imp' : ast.ImportSpec), (sampleFile [dquoted (str "a/b")]).Imports[i]? = some imp ∧
      (importHandler (sampleEnv (sampleFile [], none)) (sampleFile [dquoted (str "a/b")])
        (str "a/b") (str "x/y")).file.Imports[i]? = some imp' ∧
      imp'.Path.Value ≠ imp.Path.Value :=
  have h := importHandler_change_only_if_matched (sampleEnv (sampleFile [], none))
    (sampleFile [dquoted (str "a/b")]) (str "a/b") (str "x/y") (by decide)
  ⟨by decide, h.1, h.2 (by decide)⟩

/-! ## The file transaction `Visit` -/

/-- The two early returns of `Visit`, for an entry that is not nil. -/
theorem Visit_early_return (env : Env) (ft : Faults) (w : Walker) (path : GoString)
    (d : DirEntry) (werr : Option Error) (σ : World)
    (h : d.IsDir = true ∨ HasSuffix path (str ".go") = false) :
    w.Visit env ft path (some d) werr σ = (.returned none, σ) := by
  unfold Walker.Visit
  simp only []
  rcases h with h | h
  · rw [if_pos h]
  · by_cases hd : d.IsDir = true
    · rw [if_pos hd]
    · rw [if_neg hd, if_pos (by simp [h])]

/-- The call of `Visit` with a nil entry panics and leaves the world as it
is. -/
theorem Visit_nil_entry (env : Env) (ft : Faults) (w : Walker) (path : GoString)
    (werr : Option Error) (σ : World) :
    w.Visit env ft path none werr σ = (.panicked, σ) := rfl

/-- Claim C6 fails as stated. The root `missing` does not exist and does not
end in `.go`; the walk calls `Visit` with a nil entry and the error of `Lstat`.
`Visit` does not return nil: it panics at `d.IsDir()`. -/
theorem Visit_nil_entry_panics :
    HasSuffix (str "missing") (str ".go") = false ∧
    ((WalkDir.walker (sampleEnv (sampleFile [], none)) (str "a/b") (str "x/y") false).Visit
        (sampleEnv (sampleFile [], none)) Faults.none (str "missing") none
        (some "lstat missing: no such file or directory") (sampleWorld [])).1 = .panicked ∧
    ((WalkDir.walker (sampleEnv (sampleFile [], none)) (str "a/b") (str "x/y") false).Visit
        (sampleEnv (sampleFile [], none)) Faults.none (str "missing") none
        (some "lstat missing: no such file or directory") (sampleWorld [])).1
      ≠ .returned none := by
  decide

/-- Claim C6, as the code has it. Non-source files are untouched: for an entry
of the walk (not nil) that is a directory, or whose path does not end in
`.go`, `Visit` returns nil, whatever error the walk passes with the entry, and
leaves the world as it is: it opens, reads, parses, truncates and writes
nothing, whatever the file holds. -/
theorem Visit_skips_non_source (env : Env) (ft : Faults) (w : Walker) (path : GoString)
    (d : DirEntry) (werr : Option Error) (σ : World)
    (h : d.IsDir = true ∨ HasSuffix path (str ".go") = false) :
    w.Visit env ft path (some d) werr σ = (.returned none, σ) :=
  Visit_early_return env ft w path d werr σ h

/-- The manifest `go.mod` and a directory named `pkg.go` are skipped, the
latter also when the walk reports that it could not read the directory. -/
theorem Visit_skips_non_source_witness :
    (WalkDir.walker (sampleEnv (sampleFile [], none)) (str "a/b") (str "x/y") false).Visit
        (sampleEnv (sampleFile [], none)) Faults.none (str "go.mod") (some ⟨false⟩) none
        (sampleWorld (str "module a/b")) = (.returned none, sampleWorld (str "module a/b")) ∧
    (WalkDir.walker (sampleEnv (sampleFile [], none)) (str "a/b") (str "x/y") false).Visit
        (sampleEnv (sampleFile [], none)) Faults.none (str "pkg.go") (some ⟨true⟩)
        (some "permission denied")
        (sampleWorld (str "module a/b")) = (.returned none, sampleWorld (str "module a/b")) :=
  ⟨Visit_skips_non_source _ _ _ _ _ _ _ (Or.inr (by decide)),
   Visit_skips_non_source _ _ _ _ _ _ _ (Or.inl rfl)⟩

/-- `Visit` on a source file that is opened and read: what it returns and the
world afterwards, by the outcome of the strategy. -/
theorem Visit_source (env : Env) (ft : Faults) (w : Walker) (path : GoString) (d : DirEntry)
    (werr : Option Error) (σ : World) (content : GoString) (hdir : d.IsDir = false)
    (hgo : HasSuffix path (str ".go") = true) (hopen : ft.openErr = none)
    (hdisk : σ.disk path = some content) (hread : ft.readErr = none) :
    w.Visit env ft path (some d) werr σ =
      let σ1 := (((σ.emit (.openFile path)).emit (.readAll path)).emit (.parseFile path)).emit
        (.visitFile path)
      let out := w.VisitFile (env.ParseFile path content).1 w.origin w.newPath
      match out.err, out.buf with
      | some _, _ => (.returned none, σ1)
      | none, none => (.returned none, σ1)
      | none, some buf =>
        if buf.length > 0 then
          match ft.truncateErr with
          | some err => (.returned (some err), σ1.emit (.truncate path buf.length))
          | none =>
            match ft.writeErr with
            | some (n, err) =>
              (.returned (some err), (((σ1.emit (.truncate path buf.length)).store path
                (truncated content buf.length)).emit (.writeAt path buf)).store path
                  (written (truncated content buf.length) (buf.take n)))
            | none =>
              (.returned ft.closeErr, ((((σ1.emit (.truncate path buf.length)).store path
                (truncated content buf.length)).emit (.writeAt path buf)).store path
                  (written (truncated content buf.length) buf)).emit (.close path))
        else (.returned ft.closeErr, σ1.emit (.close path)) := by
  unfold Walker.Visit
  have hdisk' : (σ.emit (.openFile path)).disk path = some content := hdisk
  simp only [hdir, hgo, hopen, hdisk', hread, Bool.false_eq_true, if_false, Bool.not_true] <;> rfl

theorem truncated_length (content : GoString) (n : Nat) : (truncated content n).length = n := by
  unfold truncated
  simp only [List.length_append, List.length_take, List.length_replicate]
  omega

/-- Bytes written over a file truncated to their length are the file. -/
theorem written_truncated (content buf : GoString) :
    written (truncated content buf.length) buf = buf := by
  unfold written
  rw [List.drop_eq_nil_of_le (by rw [truncated_length]), List.append_nil]

theorem store_disk_self (σ : World) (path c : GoString) : (σ.store path c).disk path = some c := by
  simp [World.store]

theorem store_disk_other (σ : World) (path c q : GoString) (h : q ≠ path) :
    (σ.store path c).disk q = σ.disk q := by
  simp [World.store, h]

/-- Claim C5. Write if and only if changed: for a `.go` file that is opened,
read and parsed without error, `Visit` calls `Truncate` exactly when the
strategy reports a change (no error and a buffer that holds bytes), and calls
`WriteAt` exactly when it does and the truncate did not fail; a strategy that
reports no change, or returns no bytes, leaves every file on disk as it was,
and after a change whose truncate and write succeed the file holds the new
bytes. `importHandler` and `modHandler` report a change only if an import
declaration matched, and do report one if an import declaration matched and
the printer wrote bytes without error. -/
theorem Visit_writes_iff_changed (env : Env) (ft : Faults) (w : Walker) (path : GoString)
    (d : DirEntry) (werr : Option Error) (σ : World) (content : GoString)
    (hdir : d.IsDir = false)
    (hgo : HasSuffix path (str ".go") = true) (hopen : ft.openErr = none)
    (hdisk : σ.disk path = some content) (hread : ft.readErr = none)
    (_hparse : (env.ParseFile path content).2 = none) :
    (∃ evs, (w.Visit env ft path (some d) werr σ).2.trace = σ.trace ++ evs ∧
      ((∃ q n, Event.truncate q n ∈ evs) ↔ (w.outcome env path content).changed = true) ∧
      ((∃ q b, Event.writeAt q b ∈ evs) ↔
        ((w.outcome env path content).changed = true ∧ ft.truncateErr = none))) ∧
    ((w.outcome env path content).changed = false → (w.Visit env ft path (some d) werr σ).2.disk = σ.disk) ∧
    ((w.outcome env path content).changed = true → ft.truncateErr = none → ft.writeErr = none →
      (w.Visit env ft path (some d) werr σ).2.disk path = (w.outcome env path content).buf) ∧
    (w.VisitFile = importHandler env → (w.outcome env path content).changed = true →
      ∃ imp ∈ (env.ParseFile path content).1.Imports, astutil.importPath imp = w.origin) ∧
    (w.VisitFile = modHandler env → (w.outcome env path content).changed = true →
      ∃ imp ∈ (env.ParseFile path content).1.Imports,
        Contains imp.Path.Value w.origin = true) ∧
    (w.VisitFile = importHandler env →
      (∃ imp ∈ (env.ParseFile path content).1.Imports, astutil.importPath imp = w.origin) →
      (env.Fprint (w.outcome env path content).file).2 = none →
      (env.Fprint (w.outcome env path content).file).1 ≠ [] →
      (w.outcome env path content).changed = true) ∧
    (w.VisitFile = modHandler env →
      (∃ imp ∈ (env.ParseFile path content).1.Imports,
        Contains imp.Path.Value w.origin = true) →
      (env.ConfigFprint (w.outcome env path content).file).2 = none →
      (env.ConfigFprint (w.outcome env path content).file).1 ≠ [] →
      (w.outcome env path content).changed = true) := by
  refine ⟨?_, ?_, ?_, ?_, ?_, ?_, ?_⟩
  · rw [Visit_source env ft w path d werr σ content hdir hgo hopen hdisk hread]
    unfold Walker.outcome Outcome.changed
    simp only []
    rcases w.VisitFile (env.ParseFile path content).1 w.origin w.newPath with ⟨f, buf, err⟩
    cases err with
    | some e =>
      simp only [World.emit, List.append_assoc, List.singleton_append, List.cons_append,
        List.nil_append]
      exact ⟨_, rfl, by simp, by simp⟩
    | none =>
      cases buf with
      | none =>
        simp only [World.emit, List.append_assoc, List.singleton_append, List.cons_append,
          List.nil_append]
        exact ⟨_, rfl, by simp, by simp⟩
      | some b =>
        simp only []
        by_cases hlen : b.length > 0
        · rw [if_pos hlen]
          cases ht : ft.truncateErr with
          | some e =>
            simp only [World.emit, List.append_assoc, List.singleton_append, List.cons_append,
              List.nil_append]
            exact ⟨_, rfl, by simp [hlen], by simp⟩
          | none =>
            cases hw : ft.writeErr with
            | some ne =>
              simp only [World.emit, World.store, List.append_assoc, List.singleton_append,
                List.cons_append, List.nil_append]
              exact ⟨_, rfl, by simp [hlen], by simp [hlen]⟩
            | none =>
              simp only [World.emit, World.store, List.append_assoc, List.singleton_append,
                List.cons_append, List.nil_append]
              exact ⟨_, rfl, by simp [hlen], by simp [hlen]⟩
        · rw [if_neg hlen]
          simp only [World.emit, List.append_assoc, List.singleton_append, List.cons_append,
            List.nil_append]
          exact ⟨_, rfl, by simp [hlen], by simp [hlen]⟩
  · rw [Visit_source env ft w path d werr σ content hdir hgo hopen hdisk hread]
    unfold Walker.outcome Outcome.changed
    simp only []
    rcases w.VisitFile (env.ParseFile path content).1 w.origin w.newPath with ⟨f, buf, err⟩
    cases err with
    | some e => intro _; rfl
    | none =>
      cases buf with
      | none => intro _; rfl
      | some b =>
        simp only [decide_eq_false_iff_not]
        intro hlen
        rw [if_neg hlen]
        rfl
  · rw [Visit_source env ft w path d werr σ content hdir hgo hopen hdisk hread]
    unfold Walker.outcome Outcome.changed
    simp only []
    rcases w.VisitFile (env.ParseFile path content).1 w.origin w.newPath with ⟨f, buf, err⟩
    cases err with
    | some e => intro h; simp at h
    | none =>
      cases buf with
      | none => intro h; simp at h
      | some b =>
        simp only [decide_eq_true_eq]
        intro hlen ht hw
        rw [if_pos hlen, ht, hw]
        simp only [World.emit, written_truncated]
        exact store_disk_self _ _ _
  · intro hw hch
    unfold Walker.outcome at hch
    rw [hw] at hch
    by_contra hne
    have hb : (importHandler env (env.ParseFile path content).1 w.origin w.newPath).buf = none := by
      rw [importHandler_buf]
      intro imp himp heq
      exact hne ⟨imp, himp, heq⟩
    unfold Outcome.changed at hch
    rw [hb] at hch
    split at hch <;> simp_all
  · intro hw hch
    unfold Walker.outcome at hch
    rw [hw] at hch
    by_contra hne
    have hno := modHandler_no_match env (env.ParseFile path content).1 w.origin w.newPath
      (by
        intro imp himp
        by_contra hc
        exact hne ⟨imp, himp, by simpa using hc⟩)
    rw [hno] at hch
    simp [Outcome.changed] at hch
  · intro hw hex hpe hpb
    unfold Walker.outcome at hpe hpb ⊢
    rw [hw] at hpe hpb ⊢
    obtain ⟨hb, he⟩ := importHandler_match env _ _ _ hex
    unfold Outcome.changed
    rw [he, hb, hpe]
    simp only [decide_eq_true_eq]
    exact List.length_pos.2 hpb
  · intro hw hex hpe hpb
    unfold Walker.outcome at hpe hpb ⊢
    rw [hw] at hpe hpb ⊢
    obtain ⟨hb, he⟩ := modHandler_match env _ _ _ hex
    unfold Outcome.changed
    rw [he, hb, hpe]
    simp only [decide_eq_true_eq]
    exact List.length_pos.2 hpb

/-- With origin `a/b` and new path `x/y`, `Visit` rewrites a file `m.go` with
the import `"a/b"`: afterwards it holds the printed file with the import
`"x/y"`. -/
theorem Visit_writes_iff_changed_witness :
    (sampleVisit (sampleFile [dquoted (str "a/b")], none) Faults.none
        (sampleSource (dquoted (str "a/b")) [])).2.disk (str "m.go")
      = some (render (sampleFile [dquoted (str "x/y")])) :=
  have h := Visit_writes_iff_changed (sampleEnv (sampleFile [dquoted (str "a/b")], none))
    Faults.none
    (WalkDir.walker (sampleEnv (sampleFile [dquoted (str "a/b")], none)) (str "a/b") (str "x/y")
      false)
    (str "m.go") ⟨false⟩ none (sampleWorld (sampleSource (dquoted (str "a/b")) []))
    (sampleSource (dquoted (str "a/b")) [])
    rfl (by decide) rfl (by decide) rfl rfl
  (h.2.2.1 (by decide) rfl rfl).trans (by decide)

/-- Claim C9 fails as stated. `Visit` rewrites `m.go`; the truncate to the 22
bytes of the new file succeeds and the write fails before any byte is written.
`Visit` returns the error, and the file holds the first 22 bytes of the old
file: neither its complete original bytes nor the new bytes. -/
theorem Visit_write_failure_leaves_truncated :
    (sampleVisit (sampleFile [dquoted (str "a/b")], none)
        { Faults.none with writeErr := some (0, "no space left on device") }
        (sampleSource (dquoted (str "a/b")) (str "; func main() {}"))).1
      = .returned (some "no space left on device") ∧
    (sampleVisit (sampleFile [dquoted (str "a/b")], none)
        { Faults.none with writeErr := some (0, "no space left on device") }
        (sampleSource (dquoted (str "a/b")) (str "; func main() {}"))).2.disk (str "m.go")
      = some (str "package p; import " ++ 0x22 :: str "a/b") ∧
    str "package p; import " ++ 0x22 :: str "a/b"
      ≠ sampleSource (dquoted (str "a/b")) (str "; func main() {}") ∧
    str "package p; import " ++ 0x22 :: str "a/b" ≠ render (sampleFile [dquoted (str "x/y")]) := by
  decide

/-- Claim C9, as the code has it. For a file that `Visit` decides to rewrite
(the strategy returned no error and a buffer that holds bytes): a failure of
the truncate is returned and leaves the disk as it was; after a truncate that
succeeds, a failure of the write is returned and the file holds the bytes
written before the failure followed by the rest of the old file cut, or
extended with zero bytes, to the new length; when both succeed the file holds
exactly the new bytes and `Visit` returns what `Close` returns. No other file
changes. -/
theorem Visit_truncate_write_outcomes (env : Env) (ft : Faults) (w : Walker) (path : GoString)
    (d : DirEntry) (werr : Option Error) (σ : World) (content buf : GoString)
    (hdir : d.IsDir = false)
    (hgo : HasSuffix path (str ".go") = true) (hopen : ft.openErr = none)
    (hdisk : σ.disk path = some content) (hread : ft.readErr = none)
    (herr : (w.outcome env path content).err = none)
    (hbuf : (w.outcome env path content).buf = some buf) (hlen : buf.length > 0) :
    (∀ e, ft.truncateErr = some e →
      (w.Visit env ft path (some d) werr σ).1 = .returned (some e) ∧ (w.Visit env ft path (some d) werr σ).2.disk = σ.disk) ∧
    (ft.truncateErr = none → ∀ n e, ft.writeErr = some (n, e) →
      (w.Visit env ft path (some d) werr σ).1 = .returned (some e) ∧
      (w.Visit env ft path (some d) werr σ).2.disk path
        = some (written (truncated content buf.length) (buf.take n))) ∧
    (ft.truncateErr = none → ft.writeErr = none →
      (w.Visit env ft path (some d) werr σ).1 = .returned ft.closeErr ∧
      (w.Visit env ft path (some d) werr σ).2.disk path = some buf) ∧
    (∀ q, q ≠ path → (w.Visit env ft path (some d) werr σ).2.disk q = σ.disk q) := by
  rw [Visit_source env ft w path d werr σ content hdir hgo hopen hdisk hread]
  unfold Walker.outcome at herr hbuf
  simp only [herr, hbuf, hlen, if_true]
  refine ⟨?_, ?_, ?_, ?_⟩
  · intro e he
    rw [he]
    exact ⟨rfl, rfl⟩
  · intro ht n e hw
    rw [ht, hw]
    exact ⟨rfl, store_disk_self _ _ _⟩
  · intro ht hw
    rw [ht, hw]
    refine ⟨rfl, ?_⟩
    simp only [World.emit, written_truncated]
    exact store_disk_self _ _ _
  · intro q hq
    cases ft.truncateErr with
    | some e => rfl
    | none =>
      cases ft.writeErr with
      | some ne =>
        simp only [World.emit]
        rw [store_disk_other _ _ _ _ hq]
        exact store_disk_other _ _ _ _ hq
      | none =>
        simp only [World.emit]
        rw [store_disk_other _ _ _ _ hq]
        exact store_disk_other _ _ _ _ hq

/-- When the truncate and the write succeed, `m.go` holds the new bytes. -/
theorem Visit_truncate_write_outcomes_witness :
    (sampleVisit (sampleFile [dquoted (str "a/b")], none) Faults.none
        (sampleSource (dquoted (str "a/b")) (str "; func main() {}"))).2.disk (str "m.go")
      = some (render (sampleFile [dquoted (str "x/y")])) :=
  have h := Visit_truncate_write_outcomes (sampleEnv (sampleFile [dquoted (str "a/b")], none))
    Faults.none
    (WalkDir.walker (sampleEnv (sampleFile [dquoted (str "a/b")], none)) (str "a/b") (str "x/y")
      false)
    (str "m.go") ⟨false⟩ none
    (sampleWorld (sampleSource (dquoted (str "a/b")) (str "; func main() {}")))
    (sampleSource (dquoted (str "a/b")) (str "; func main() {}"))
    (render (sampleFile [dquoted (str "x/y")])) rfl (by decide) rfl (by decide) rfl
    (by decide) (by decide) (by decide)
  (h.2.2.1 rfl rfl).2

/-- Claim C4, what the code does. The parser returns an error for `m.go`
together with the part of the tree it could build, which holds the import
`"a/b"`. `Visit` does not look at that error: it returns nil, nothing is
logged, the strategy runs on the partial tree, and the file is truncated and
overwritten with the printed partial tree. -/
theorem Visit_parse_error_not_checked :
    ((sampleEnv (sampleFile [dquoted (str "a/b")], some "syntax error")).ParseFile
        (str "m.go") (sampleSource (dquoted (str "a/b")) (str "; func ("))).2
      = some "syntax error" ∧
    (sampleVisit (sampleFile [dquoted (str "a/b")], some "syntax error") Faults.none
        (sampleSource (dquoted (str "a/b")) (str "; func ("))).1 = .returned none ∧
    (sampleVisit (sampleFile [dquoted (str "a/b")], some "syntax error") Faults.none
        (sampleSource (dquoted (str "a/b")) (str "; func ("))).2.trace
      = [.openFile (str "m.go"), .readAll (str "m.go"), .parseFile (str "m.go"),
         .visitFile (str "m.go"), .truncate (str "m.go") 22,
         .writeAt (str "m.go") (render (sampleFile [dquoted (str "x/y")])),
         .close (str "m.go")] ∧
    (sampleVisit (sampleFile [dquoted (str "a/b")], some "syntax error") Faults.none
        (sampleSource (dquoted (str "a/b")) (str "; func ("))).2.disk (str "m.go")
      = some (render (sampleFile [dquoted (str "x/y")])) := by
  decide

/-- `Visit` never logs: no call of it adds a `log.Println` event. -/
theorem Visit_never_logs (env : Env) (ft : Faults) (w : Walker) (path : GoString)
    (d : Option DirEntry) (werr : Option Error) (σ : World) :
    ∃ evs, (w.Visit env ft path d werr σ).2.trace = σ.trace ++ evs ∧
      ∀ e, Event.logPrintln e ∉ evs := by
  cases d with
  | none => exact ⟨[], by simp [Walker.Visit], by simp⟩
  | some d =>
  by_cases hdir : d.IsDir = true
  · rw [Visit_early_return env ft w path d werr σ (Or.inl hdir)]
    exact ⟨[], by simp, by simp⟩
  by_cases hgo : HasSuffix path (str ".go") = true
  swap
  · rw [Visit_early_return env ft w path d werr σ (Or.inr (by simpa using hgo))]
    exact ⟨[], by simp, by simp⟩
  have hdir' : d.IsDir = false := by simpa using hdir
  cases hopen : ft.openErr with
  | some e =>
    refine ⟨[.openFile path], ?_, by simp⟩
    unfold Walker.Visit
    simp [hdir', hgo, hopen, World.emit]
  | none =>
    cases hdisk : σ.disk path with
    | none =>
      refine ⟨[.openFile path], ?_, by simp⟩
      have hdisk' : (σ.emit (.openFile path)).disk path = none := hdisk
      unfold Walker.Visit
      simp [hdir', hgo, hopen, hdisk, hdisk', World.emit]
    | some content =>
      cases hread : ft.readErr with
      | some e =>
        refine ⟨[.openFile path, .readAll path], ?_, by simp⟩
        have hdisk' : (σ.emit (.openFile path)).disk path = some content := hdisk
        unfold Walker.Visit
        simp [hdir', hgo, hopen, hdisk, hdisk', hread, World.emit]
      | none =>
        rw [Visit_source env ft w path d werr σ content hdir' hgo hopen hdisk hread]
        simp only []
        rcases w.VisitFile (env.ParseFile path content).1 w.origin w.newPath with ⟨f, buf, err⟩
        cases err with
        | some e =>
          simp only [World.emit, List.append_assoc, List.singleton_append, List.cons_append,
            List.nil_append]
          exact ⟨_, rfl, by simp⟩
        | none =>
          cases buf with
          | none =>
            simp only [World.emit, List.append_assoc, List.singleton_append, List.cons_append,
              List.nil_append]
            exact ⟨_, rfl, by simp⟩
          | some b =>
            simp only []
            by_cases hlen : b.length > 0
            · rw [if_pos hlen]
              cases ft.truncateErr with
              | some e =>
                simp only [World.emit, List.append_assoc, List.singleton_append, List.cons_append,
                  List.nil_append]
                exact ⟨_, rfl, by simp⟩
              | none =>
                cases ft.writeErr with
                | some ne =>
                  simp only [World.emit, World.store, List.append_assoc, List.singleton_append,
                    List.cons_append, List.nil_append]
                  exact ⟨_, rfl, by simp⟩
                | none =>
                  simp only [World.emit, World.store, List.append_assoc, List.singleton_append,
                    List.cons_append, List.nil_append]
                  exact ⟨_, rfl, by simp⟩
            · rw [if_neg hlen]
              simp only [World.emit, List.append_assoc, List.singleton_append, List.cons_append,
                List.nil_append]
              exact ⟨_, rfl, by simp⟩

end Gore
